import Mathlib

/-!
# Verification of the RGA-Split text CRDT engine

Shallow embedding of `src/pkg/document/json/datatype/text.go` (package
`datatype` of hueypark/yorkie).  The intrusive doubly linked `prev/next`
list rooted at `initialHead` is embedded as a `List TextNode` in traversal
order, with the sentinel head as the first element.  Since nodes are never
removed and every insertion also registers the node in the splay index and
the LLRB index (invariant 1 of the spec), both indices are modelled as
derived views of that list: the LLRB key set is the set of node ids, and
the splay index answers offset queries by walking the list and summing
live lengths.  Node pointers are embedded as `TextNodeID` values; mutation
of a pointed-to node becomes an id-directed update of the list.  Content
strings are embedded as `List Char` so that lengths and slicing match the
code-unit discipline of the source.

The `time.Ticket`, `splay` and `llrb` packages of the repository are not
under `src/`; the definitions that embed them are modelled from the spec
and are marked as such in their doc comments.
-/

namespace Yorkie

/-- Modelled from the spec: `Ticket` is a Lamport triple
`(lamport, delimiter, actor)`; the package `pkg/document/time` is not under
`src/`.  Actor identifiers (12 bytes, compared lexicographically) are
embedded as natural numbers. -/
structure Ticket where
  lamport : Nat
  delimiter : Nat
  actor : Nat
  deriving DecidableEq, Repr

/-- Modelled from the spec: total order over tickets compares `lamport`,
then `actor` lexicographically, then `delimiter`. -/
def Ticket.compareT (t o : Ticket) : Ordering :=
  match compare t.lamport o.lamport with
  | Ordering.eq =>
    match compare t.actor o.actor with
    | Ordering.eq => compare t.delimiter o.delimiter
    | c => c
  | c => c

/-- Modelled from the spec: `Ticket.After` holds when this ticket is
strictly greater in the total order. -/
def Ticket.after (t o : Ticket) : Bool := t.compareT o == Ordering.gt

/-- Modelled from the spec: `InitialTicket` has zero lamport and zero actor. -/
def InitialTicket : Ticket := ⟨0, 0, 0⟩

/-- Modelled from the spec: `MaxTicket` is saturated in every component
(`u64` lamport, `u32` delimiter, 12-byte actor). -/
def MaxTicket : Ticket := ⟨18446744073709551615, 4294967295, 79228162514264337593543950335⟩

/-- `TextNodeID`: creation ticket plus split offset (text.go). -/
structure TextNodeID where
  createdAt : Ticket
  offset : Nat
  deriving DecidableEq, Repr

/-- `TextNodeID.Compare`: order by `createdAt`, then by `offset` (text.go). -/
def TextNodeID.compareID (t o : TextNodeID) : Ordering :=
  match t.createdAt.compareT o.createdAt with
  | Ordering.eq => compare t.offset o.offset
  | c => c

/-- `TextNodeID.split`: the child id `(createdAt, offset + k)` (text.go). -/
def TextNodeID.splitID (t : TextNodeID) (k : Nat) : TextNodeID :=
  ⟨t.createdAt, t.offset + k⟩

/-- The id `(InitialTicket, 0)` of the sentinel head (text.go). -/
def initialTextNodeID : TextNodeID := ⟨InitialTicket, 0⟩

/-- `TextNodePos`: a cursor, an id plus a relative offset (text.go). -/
structure TextNodePos where
  id : TextNodeID
  relativeOffset : Nat
  deriving DecidableEq, Repr

/-- `TextNodePos.getAbsoluteID` (text.go). -/
def TextNodePos.getAbsoluteID (pos : TextNodePos) : TextNodeID :=
  ⟨pos.id.createdAt, pos.id.offset + pos.relativeOffset⟩

/-- `TextNode`: id, content, optional tombstone, and the insertion-history
links.  The `prev`/`next` links are implicit in the list order of
`RGATreeSplit.nodes`; `insPrev`/`insNext` pointers are embedded as optional
ids (fields `insPrevI`/`insNextI`). -/
structure TextNode where
  id : TextNodeID
  value : List Char
  deletedAt : Option Ticket
  insPrevI : Option TextNodeID
  insNextI : Option TextNodeID
  deriving DecidableEq, Repr

/-- `TextNode.contentLen` (text.go). -/
def TextNode.contentLen (t : TextNode) : Nat := t.value.length

/-- `TextNode.Len`: 0 when tombstoned, else the content length (text.go). -/
def TextNode.len (t : TextNode) : Nat :=
  match t.deletedAt with
  | some _ => 0
  | none => t.contentLen

/-- The success condition of `TextNode.delete` (text.go lines 186-193):
the creation ticket is not after the per-owner bound, and the node is
either live or was tombstoned by a strictly earlier ticket. -/
def TextNode.canDelete (t : TextNode) (editedAt maxCreatedAtByOwner : Ticket) : Bool :=
  !(t.id.createdAt.after maxCreatedAtByOwner) &&
    (match t.deletedAt with
     | none => true
     | some d => editedAt.after d)

/-- `RGATreeSplit`: the node graph.  The list is the `prev/next` chain
starting at the sentinel head; the splay index and the LLRB id index are
modelled as derived views of it. -/
structure RGATreeSplit where
  nodes : List TextNode
  deriving DecidableEq, Repr

/-- The sentinel head node (id `(InitialTicket, 0)`, empty value). -/
def initialHeadNode : TextNode := ⟨initialTextNodeID, [], none, none, none⟩

/-- `NewRGATreeSplit` (text.go). -/
def NewRGATreeSplit : RGATreeSplit := ⟨[initialHeadNode]⟩

/-- The suffix of the chain starting at the node with the given id
(embeds following a node pointer and its `next` chain). -/
def suffixFrom : List TextNode → TextNodeID → List TextNode
  | [], _ => []
  | n :: rest, i => if n.id = i then n :: rest else suffixFrom rest i

/-- Insert a node immediately after the node with the given id (embeds the
list-relink part of `RGATreeSplit.InsertAfter`). -/
def insertAfterL : List TextNode → TextNodeID → TextNode → List TextNode
  | [], _, _ => []
  | n :: rest, i, m => if n.id = i then n :: m :: rest else n :: insertAfterL rest i m

/-- Apply an update to the node with the given id (embeds mutation through
a node pointer; node ids are unique in every reachable state). -/
def updateNode (ns : List TextNode) (i : TextNodeID) (f : TextNode → TextNode) : List TextNode :=
  ns.map (fun m => if m.id = i then f m else m)

/-- Look a node up by id (the first match, as a pointer dereference would). -/
def findNode : List TextNode → TextNodeID → Option TextNode
  | [], _ => none
  | n :: rest, i => if n.id = i then some n else findNode rest i

/-- The node immediately after the node with the given id (embeds `.next`). -/
def nextAfter (ns : List TextNode) (i : TextNodeID) : Option TextNode :=
  match suffixFrom ns i with
  | _ :: m :: _ => some m
  | _ => none

/-- The `insPrev` patch applied to the former `insNext` of a split node
(text.go lines 286-289): the node whose id is the stored `insNext` id gets
its `insPrev` repointed at the fresh split node. -/
def insNextPatch (j : Option TextNodeID) (sid : TextNodeID) (m : TextNode) : TextNode :=
  if some m.id = j then { m with insPrevI := some sid } else m

/-- `RGATreeSplit.splitTextNode` (text.go lines 270-293).  `offset = 0`
returns the node itself; `offset = contentLen` returns the node after it;
otherwise the node keeps its first `offset` code units, a fresh node with
id `(createdAt, offset + k)` carries the tail, is linked immediately after
it (list, splay index, LLRB id index), and the `insPrev`/`insNext` chain is
patched so the fresh node sits between the node and its former `insNext`.
The fresh node is created by `newTextNode`, whose `deletedAt` is unset.
The source halts (logic fault) when `offset > contentLen`; that branch and
a missing node are embedded as `none` with the state unchanged. -/
def RGATreeSplit.splitTextNode (s : RGATreeSplit) (nid : TextNodeID) (offset : Nat) :
    RGATreeSplit × Option TextNodeID :=
  match findNode s.nodes nid with
  | none => (s, none)
  | some n =>
    if offset = 0 then (s, some nid)
    else if offset = n.contentLen then (s, (nextAfter s.nodes nid).map (fun m => m.id))
    else if n.contentLen < offset then (s, none)
    else
      let sid := nid.splitID offset
      let splitNode : TextNode := ⟨sid, n.value.drop offset, none, some nid, n.insNextI⟩
      let ns1 := s.nodes.map (fun m =>
        if m.id = nid then { m with value := m.value.take offset, insNextI := some sid }
        else insNextPatch n.insNextI sid m)
      (⟨insertAfterL ns1 nid splitNode⟩, some sid)

/-- One step of the floor scan: keep the running best key that is not
greater than the query. -/
def floorStep (i : TextNodeID) (best : Option TextNode) (n : TextNode) : Option TextNode :=
  if n.id.compareID i = Ordering.gt then best
  else
    match best with
    | none => some n
    | some b => if b.id.compareID n.id = Ordering.lt then some n else best

/-- Modelled from the spec: the LLRB `Floor` query answers the greatest
key less than or equal to the given key; the package `pkg/llrb` is not
under `src/`.  Embedded as a fold over the derived key set. -/
def floorLLRB (ns : List TextNode) (i : TextNodeID) : Option TextNode :=
  ns.foldl (floorStep i) none

/-- `RGATreeSplit.findFloorTextNode` (text.go lines 320-334): the raw LLRB
floor, filtered to `nil` unless the found key equals the query or shares
its `createdAt`. -/
def RGATreeSplit.findFloorTextNode (s : RGATreeSplit) (i : TextNodeID) : Option TextNode :=
  match floorLLRB s.nodes i with
  | none => none
  | some n =>
    if n.id.compareID i ≠ Ordering.eq ∧ n.id.createdAt.compareT i.createdAt ≠ Ordering.eq then
      none
    else some n

/-- `RGATreeSplit.findFloorTextNodePreferToLeft` (text.go lines 252-268).
When the floor's offset equals the queried offset (a prior split landed
exactly there), step to the floor's `insPrev` sibling.  The halting
branches (floor miss, missing `insPrev`) are embedded as `none`. -/
def RGATreeSplit.findFloorTextNodePreferToLeft (s : RGATreeSplit) (i : TextNodeID) :
    Option TextNode :=
  match s.findFloorTextNode i with
  | none => none
  | some n =>
    if 0 < i.offset ∧ n.id.offset = i.offset then
      match n.insPrevI with
      | none => none
      | some p => findNode s.nodes p
    else some n

/-- The rightward slide of `findTextNodeWithSplit` (text.go lines 245-247):
advance past the consecutive run of following nodes whose creation ticket
is after `editedAt`, returning the final node and its `next`. -/
def slideAux : TextNode → List TextNode → Ticket → TextNode × Option TextNode
  | n, [], _ => (n, none)
  | n, m :: rest, t => if m.id.createdAt.after t then slideAux m rest t else (n, some m)

/-- The resolution prefix of `findTextNodeWithSplit` (text.go lines
238-241): the floor-prefer-left node and the relative offset of the
position's absolute id inside it. -/
def RGATreeSplit.resolveLeft (s : RGATreeSplit) (pos : TextNodePos) : Option (TextNodeID × Nat) :=
  match s.findFloorTextNodePreferToLeft pos.getAbsoluteID with
  | none => none
  | some n => some (n.id, pos.getAbsoluteID.offset - n.id.offset)

/-- `RGATreeSplit.findTextNodeWithSplit` (text.go lines 234-250): resolve,
split at the relative offset, slide rightward past concurrent later
inserts, and return the final node with its `next`. -/
def RGATreeSplit.findTextNodeWithSplit (s : RGATreeSplit) (pos : TextNodePos) (editedAt : Ticket) :
    Option (RGATreeSplit × TextNodeID × Option TextNodeID) :=
  match s.resolveLeft pos with
  | none => none
  | some (nid, rel) =>
    let s1 := (s.splitTextNode nid rel).1
    match suffixFrom s1.nodes nid with
    | [] => none
    | n :: rest =>
      let p := slideAux n rest editedAt
      some (s1, p.1.id, p.2.map (fun m => m.id))

/-- The walk of `findBetween` up to but excluding the stop node. -/
def upTo : List TextNode → TextNodeID → List TextNode
  | [], _ => []
  | n :: rest, t => if n.id = t then [] else n :: upTo rest t

/-- `RGATreeSplit.findBetween` (text.go lines 368-376): the `next`-chain
walk from `from` up to but excluding `to` (to the end when `to` is nil;
empty when `from` is nil). -/
def findBetween (ns : List TextNode) : Option TextNodeID → Option TextNodeID → List TextNode
  | none, _ => []
  | some f, none => suffixFrom ns f
  | some f, some t => upTo (suffixFrom ns f) t

/-- Association-list lookup embedding `map[string]*time.Ticket` access;
actor hex strings are embedded as the actor number of the ticket. -/
def lookupA : List (Nat × Ticket) → Nat → Option Ticket
  | [], _ => none
  | (b, t) :: rest, a => if b = a then some t else lookupA rest a

/-- The per-actor bound of `deleteNodes` (text.go lines 388-398):
`MaxTicket` when the map is nil, the mapped ticket when the actor is
present, else `InitialTicket`. -/
def boundFor (maxMap : Option (List (Nat × Ticket))) (a : Nat) : Ticket :=
  match maxMap with
  | none => MaxTicket
  | some m =>
    match lookupA m a with
    | some t => t
    | none => InitialTicket

/-- Replace the entry of an actor in the association list (appending when
absent), embedding a Go map assignment. -/
def setA : List (Nat × Ticket) → Nat → Ticket → List (Nat × Ticket)
  | [], a, c => [(a, c)]
  | (b, t) :: rest, a, c => if b = a then (a, c) :: rest else (b, t) :: setA rest a c

/-- The output-map update of `deleteNodes` (text.go lines 403-407): record
the creation ticket for the actor when no entry exists or the ticket is
after the recorded one. -/
def insertMax (out : List (Nat × Ticket)) (a : Nat) (c : Ticket) : List (Nat × Ticket) :=
  match lookupA out a with
  | none => out ++ [(a, c)]
  | some mx =>
    if c.after mx then setA out a c else out

/-- One iteration of the `deleteNodes` loop (text.go lines 385-409): filter
the candidate against its actor's bound and, on success, tombstone it with
`editedAt` and record its creation ticket.  The splay of the tombstoned
node only maintains the derived index and has no observable effect here. -/
def deleteStep (maxMap : Option (List (Nat × Ticket))) (editedAt : Ticket)
    (acc : RGATreeSplit × List (Nat × Ticket)) (n : TextNode) :
    RGATreeSplit × List (Nat × Ticket) :=
  if n.canDelete editedAt (boundFor maxMap n.id.createdAt.actor) then
    (⟨updateNode acc.1.nodes n.id (fun m => { m with deletedAt := some editedAt })⟩,
      insertMax acc.2 n.id.createdAt.actor n.id.createdAt)
  else acc

/-- `RGATreeSplit.deleteNodes` (text.go lines 378-412). -/
def RGATreeSplit.deleteNodes (s : RGATreeSplit) (cands : List TextNode)
    (maxMap : Option (List (Nat × Ticket))) (editedAt : Ticket) :
    RGATreeSplit × List (Nat × Ticket) :=
  cands.foldl (deleteStep maxMap editedAt) (s, [])

/-- `RGATreeSplit.edit` (text.go lines 336-366): resolve both boundaries
with splits, tombstone the span between them under the per-actor bounds,
and insert the content (when non-empty) after the left boundary.  The
halting branches of resolution are embedded as `none`. -/
def RGATreeSplit.edit (s : RGATreeSplit) (fromPos toPos : TextNodePos)
    (maxMap : Option (List (Nat × Ticket))) (content : List Char) (editedAt : Ticket) :
    Option (RGATreeSplit × TextNodePos × List (Nat × Ticket)) :=
  match s.findTextNodeWithSplit fromPos editedAt with
  | none => none
  | some (s1, fromLeft, _fromRight) =>
    match s1.findTextNodeWithSplit toPos editedAt with
    | none => none
    | some (s2, toLeft, toRight) =>
      let cands := findBetween s2.nodes _fromRight toRight
      let p := s2.deleteNodes cands maxMap editedAt
      let caretID := match toRight with | none => toLeft | some r => r
      if content = [] then some (p.1, ⟨caretID, 0⟩, p.2)
      else
        let newNode : TextNode := ⟨⟨editedAt, 0⟩, content, none, none, none⟩
        some (⟨insertAfterL p.1.nodes fromLeft newNode⟩, ⟨newNode.id, newNode.contentLen⟩, p.2)

/-- The live-content walk of `marshal` (text.go lines 414-426). -/
def liveValues : List TextNode → List Char
  | [] => []
  | n :: rest =>
    (match n.deletedAt with
     | none => n.value
     | some _ => []) ++ liveValues rest

/-- `RGATreeSplit.marshal` (text.go lines 414-426): concatenate the live
values starting from `initialHead.next`. -/
def RGATreeSplit.marshal (s : RGATreeSplit) : List Char := liveValues s.nodes.tail

/-- Modelled from the spec: the splay index `Find` walks the traversal
order summing live lengths; it stops at the first node whose live span
admits the offset (so at a boundary it prefers the left node and passes
through tombstones), and a lookup at the total visible length returns the
last node with offset equal to its live length.  The package `pkg/splay`
is not under `src/`. -/
def findPosAux : TextNode → List TextNode → Nat → TextNodePos
  | n, [], k => ⟨n.id, k⟩
  | n, m :: rest, k => if k ≤ n.len then ⟨n.id, k⟩ else findPosAux m rest (k - n.len)

/-- `RGATreeSplit.findTextNodePos` (text.go lines 225-232). -/
def RGATreeSplit.findTextNodePos (s : RGATreeSplit) (k : Nat) : TextNodePos :=
  match s.nodes with
  | [] => ⟨initialTextNodeID, 0⟩
  | n :: rest => findPosAux n rest k

/-- `RGATreeSplit.findBoundary` (text.go lines 216-223): resolve both
integer offsets, sharing the `from` position when the offsets coincide.
The source performs no range or order validation. -/
def RGATreeSplit.findBoundary (s : RGATreeSplit) (fromIdx toIdx : Nat) :
    TextNodePos × TextNodePos :=
  let fromPos := s.findTextNodePos fromIdx
  if fromIdx = toIdx then (fromPos, fromPos)
  else (fromPos, s.findTextNodePos toIdx)

/-- `Text` (text.go lines 469-473). -/
structure Text where
  rgaTreeSplit : RGATreeSplit
  createdAt : Ticket
  deriving DecidableEq, Repr

/-- `Text.FindBoundary` (text.go lines 511-514). -/
def Text.FindBoundary (t : Text) (fromIdx toIdx : Nat) : TextNodePos × TextNodePos :=
  t.rgaTreeSplit.findBoundary fromIdx toIdx

/-- `Text.Marshal` (text.go lines 483-485): the marshalled text wrapped in
quotation marks. -/
def Text.Marshal (t : Text) : List Char :=
  ('"' :: t.rgaTreeSplit.marshal) ++ ['"']

/-! ## Order lemmas for tickets and node ids -/

theorem Ticket.compareT_gt_iff (a b : Ticket) :
    a.compareT b = Ordering.gt ↔
      b.lamport < a.lamport ∨ b.lamport = a.lamport ∧
        (b.actor < a.actor ∨ b.actor = a.actor ∧ b.delimiter < a.delimiter) := by
  unfold Ticket.compareT
  rcases hl : compare a.lamport b.lamport with _ | _ | _ <;>
    rcases ha : compare a.actor b.actor with _ | _ | _ <;>
      simp only [Nat.compare_eq_lt, Nat.compare_eq_eq, Nat.compare_eq_gt] at hl ha <;>
        simp [Nat.compare_eq_gt] <;> omega

theorem Ticket.compareT_lt_iff (a b : Ticket) :
    a.compareT b = Ordering.lt ↔
      a.lamport < b.lamport ∨ a.lamport = b.lamport ∧
        (a.actor < b.actor ∨ a.actor = b.actor ∧ a.delimiter < b.delimiter) := by
  unfold Ticket.compareT
  rcases hl : compare a.lamport b.lamport with _ | _ | _ <;>
    rcases ha : compare a.actor b.actor with _ | _ | _ <;>
      simp only [Nat.compare_eq_lt, Nat.compare_eq_eq, Nat.compare_eq_gt] at hl ha <;>
        simp [Nat.compare_eq_lt] <;> omega

theorem Ticket.compareT_eq_arith (a b : Ticket) :
    a.compareT b = Ordering.eq ↔
      a.lamport = b.lamport ∧ a.actor = b.actor ∧ a.delimiter = b.delimiter := by
  unfold Ticket.compareT
  rcases hl : compare a.lamport b.lamport with _ | _ | _ <;>
    rcases ha : compare a.actor b.actor with _ | _ | _ <;>
      simp only [Nat.compare_eq_lt, Nat.compare_eq_eq, Nat.compare_eq_gt] at hl ha <;>
        simp [Nat.compare_eq_eq] <;> omega

theorem Ticket.compareT_eq_iff (a b : Ticket) : a.compareT b = Ordering.eq ↔ a = b := by
  cases a with
  | mk al ad aa =>
    cases b with
    | mk bl bd ba =>
      rw [Ticket.compareT_eq_arith]
      dsimp only
      simp only [Ticket.mk.injEq]
      tauto

theorem Ticket.after_eq_gt (a b : Ticket) : a.after b = true ↔ a.compareT b = Ordering.gt := by
  unfold Ticket.after
  rcases hc : a.compareT b with _ | _ | _ <;> decide

theorem Ticket.after_iff (a b : Ticket) :
    a.after b = true ↔
      b.lamport < a.lamport ∨ b.lamport = a.lamport ∧
        (b.actor < a.actor ∨ b.actor = a.actor ∧ b.delimiter < a.delimiter) := by
  rw [Ticket.after_eq_gt]
  exact Ticket.compareT_gt_iff a b

theorem Ticket.after_irrefl (a : Ticket) : a.after a = false := by
  rw [Bool.eq_false_iff]
  intro h
  have := (Ticket.after_iff a a).mp h
  omega

theorem Ticket.after_trans {a b c : Ticket} (h1 : a.after b = true) (h2 : b.after c = true) :
    a.after c = true := by
  rw [Ticket.after_iff] at h1 h2 ⊢
  omega

theorem Ticket.after_antisymm {a b : Ticket} (h1 : ¬a.after b = true) (h2 : ¬b.after a = true) :
    a = b := by
  rw [Ticket.after_iff] at h1 h2
  cases a
  cases b
  dsimp only at h1 h2
  simp only [Ticket.mk.injEq]
  omega

theorem TextNodeID.compareID_gt_arith (x y : TextNodeID) :
    x.compareID y = Ordering.gt ↔
      y.createdAt.lamport < x.createdAt.lamport ∨
        y.createdAt.lamport = x.createdAt.lamport ∧
          (y.createdAt.actor < x.createdAt.actor ∨
            y.createdAt.actor = x.createdAt.actor ∧
              (y.createdAt.delimiter < x.createdAt.delimiter ∨
                y.createdAt.delimiter = x.createdAt.delimiter ∧ y.offset < x.offset)) := by
  rcases hc : x.createdAt.compareT y.createdAt with _ | _ | _
  · simp only [TextNodeID.compareID, hc]
    rw [Ticket.compareT_lt_iff] at hc
    constructor
    · intro h
      cases h
    · intro h
      exfalso
      omega
  · simp only [TextNodeID.compareID, hc, Nat.compare_eq_gt]
    rw [Ticket.compareT_eq_arith] at hc
    omega
  · simp only [TextNodeID.compareID, hc]
    rw [Ticket.compareT_gt_iff] at hc
    constructor
    · intro _
      omega
    · intro _
      trivial

theorem TextNodeID.compareID_lt_arith (x y : TextNodeID) :
    x.compareID y = Ordering.lt ↔
      x.createdAt.lamport < y.createdAt.lamport ∨
        x.createdAt.lamport = y.createdAt.lamport ∧
          (x.createdAt.actor < y.createdAt.actor ∨
            x.createdAt.actor = y.createdAt.actor ∧
              (x.createdAt.delimiter < y.createdAt.delimiter ∨
                x.createdAt.delimiter = y.createdAt.delimiter ∧ x.offset < y.offset)) := by
  rcases hc : x.createdAt.compareT y.createdAt with _ | _ | _
  · simp only [TextNodeID.compareID, hc]
    rw [Ticket.compareT_lt_iff] at hc
    constructor
    · intro _
      omega
    · intro _
      trivial
  · simp only [TextNodeID.compareID, hc, Nat.compare_eq_lt]
    rw [Ticket.compareT_eq_arith] at hc
    omega
  · simp only [TextNodeID.compareID, hc]
    rw [Ticket.compareT_gt_iff] at hc
    constructor
    · intro h
      cases h
    · intro h
      exfalso
      omega

theorem TextNodeID.compareID_eq_arith (x y : TextNodeID) :
    x.compareID y = Ordering.eq ↔
      x.createdAt.lamport = y.createdAt.lamport ∧ x.createdAt.actor = y.createdAt.actor ∧
        x.createdAt.delimiter = y.createdAt.delimiter ∧ x.offset = y.offset := by
  rcases hc : x.createdAt.compareT y.createdAt with _ | _ | _
  · simp only [TextNodeID.compareID, hc]
    rw [Ticket.compareT_lt_iff] at hc
    constructor
    · intro h
      cases h
    · intro h
      exfalso
      omega
  · simp only [TextNodeID.compareID, hc, Nat.compare_eq_eq]
    rw [Ticket.compareT_eq_arith] at hc
    omega
  · simp only [TextNodeID.compareID, hc]
    rw [Ticket.compareT_gt_iff] at hc
    constructor
    · intro h
      cases h
    · intro h
      exfalso
      omega

theorem TextNodeID.compareID_eq_iff (x y : TextNodeID) :
    x.compareID y = Ordering.eq ↔ x = y := by
  rw [TextNodeID.compareID_eq_arith]
  cases x with
  | mk cx ox =>
    cases y with
    | mk cy oy =>
      cases cx
      cases cy
      simp only [TextNodeID.mk.injEq, Ticket.mk.injEq]
      tauto

/-- `x ≤ y` in the node-id order: the comparison does not answer `gt`. -/
def idLe (x y : TextNodeID) : Prop := ¬x.compareID y = Ordering.gt

theorem idLe_refl (x : TextNodeID) : idLe x x := by
  unfold idLe
  rw [TextNodeID.compareID_gt_arith]
  omega

theorem idLe_trans {x y z : TextNodeID} (h1 : idLe x y) (h2 : idLe y z) : idLe x z := by
  unfold idLe at h1 h2 ⊢
  rw [TextNodeID.compareID_gt_arith] at h1 h2 ⊢
  omega

theorem idLe_antisymm {x y : TextNodeID} (h1 : idLe x y) (h2 : idLe y x) : x = y := by
  unfold idLe at h1 h2
  rw [TextNodeID.compareID_gt_arith] at h1 h2
  cases x with
  | mk cx ox =>
    cases y with
    | mk cy oy =>
      cases cx
      cases cy
      dsimp only at h1 h2
      simp only [TextNodeID.mk.injEq, Ticket.mk.injEq]
      omega

theorem idLe_total (x y : TextNodeID) : idLe x y ∨ idLe y x := by
  unfold idLe
  rw [TextNodeID.compareID_gt_arith, TextNodeID.compareID_gt_arith]
  omega

theorem idLe_of_lt {x y : TextNodeID} (h : x.compareID y = Ordering.lt) : idLe x y := by
  unfold idLe
  rw [TextNodeID.compareID_lt_arith] at h
  rw [TextNodeID.compareID_gt_arith]
  omega

theorem idLe_of_not_lt {x y : TextNodeID} (h : ¬x.compareID y = Ordering.lt) : idLe y x := by
  unfold idLe
  rw [TextNodeID.compareID_lt_arith] at h
  rw [TextNodeID.compareID_gt_arith]
  omega

/-! ## List-level machinery -/

theorem findNode_split {ns : List TextNode} {i : TextNodeID} {n : TextNode}
    (h : findNode ns i = some n) :
    ∃ pre post, ns = pre ++ n :: post ∧ (∀ m ∈ pre, m.id ≠ i) ∧ n.id = i := by
  induction ns with
  | nil => cases h
  | cons x rest ih =>
    unfold findNode at h
    by_cases hx : x.id = i
    · rw [if_pos hx] at h
      cases h
      exact ⟨[], rest, rfl, by simp, hx⟩
    · rw [if_neg hx] at h
      obtain ⟨pre, post, hsplit, hpre, hni⟩ := ih h
      exact ⟨x :: pre, post, by rw [hsplit]; rfl, by
        intro m hm
        rcases List.mem_cons.mp hm with hm | hm
        · rw [hm]; exact hx
        · exact hpre m hm, hni⟩

theorem findNode_of_decomp {pre post : List TextNode} {n : TextNode} {i : TextNodeID}
    (hpre : ∀ m ∈ pre, m.id ≠ i) (hid : n.id = i) :
    findNode (pre ++ n :: post) i = some n := by
  induction pre with
  | nil => simp [findNode, hid]
  | cons x rest ih =>
    have hx : x.id ≠ i := hpre x (List.mem_cons_self x rest)
    simp only [List.cons_append, findNode, if_neg hx]
    exact ih fun m hm => hpre m (List.mem_cons_of_mem x hm)

theorem suffixFrom_of_decomp {pre post : List TextNode} {n : TextNode} {i : TextNodeID}
    (hpre : ∀ m ∈ pre, m.id ≠ i) (hid : n.id = i) :
    suffixFrom (pre ++ n :: post) i = n :: post := by
  induction pre with
  | nil => simp [suffixFrom, hid]
  | cons x rest ih =>
    have hx : x.id ≠ i := hpre x (List.mem_cons_self x rest)
    simp only [List.cons_append, suffixFrom, if_neg hx]
    exact ih fun m hm => hpre m (List.mem_cons_of_mem x hm)

theorem insertAfterL_of_decomp {pre post : List TextNode} {n x : TextNode} {i : TextNodeID}
    (hpre : ∀ m ∈ pre, m.id ≠ i) (hid : n.id = i) :
    insertAfterL (pre ++ n :: post) i x = pre ++ n :: x :: post := by
  induction pre with
  | nil => simp [insertAfterL, hid]
  | cons y rest ih =>
    have hy : y.id ≠ i := hpre y (List.mem_cons_self y rest)
    simp only [List.cons_append, insertAfterL, if_neg hy, List.cons.injEq, true_and]
    exact ih fun m hm => hpre m (List.mem_cons_of_mem y hm)

theorem mem_insertAfterL {ns : List TextNode} {i : TextNodeID} {x m : TextNode}
    (h : m ∈ insertAfterL ns i x) : m ∈ ns ∨ m = x := by
  induction ns with
  | nil => cases h
  | cons y rest ih =>
    unfold insertAfterL at h
    by_cases hy : y.id = i
    · rw [if_pos hy] at h
      rcases List.mem_cons.mp h with h | h
      · exact Or.inl (by rw [h]; exact List.mem_cons_self y rest)
      · rcases List.mem_cons.mp h with h | h
        · exact Or.inr h
        · exact Or.inl (List.mem_cons_of_mem y h)
    · rw [if_neg hy] at h
      rcases List.mem_cons.mp h with h | h
      · exact Or.inl (by rw [h]; exact List.mem_cons_self y rest)
      · rcases ih h with h | h
        · exact Or.inl (List.mem_cons_of_mem y h)
        · exact Or.inr h

theorem mem_suffixFrom {ns : List TextNode} {i : TextNodeID} {m : TextNode}
    (h : m ∈ suffixFrom ns i) : m ∈ ns := by
  induction ns with
  | nil => cases h
  | cons y rest ih =>
    unfold suffixFrom at h
    by_cases hy : y.id = i
    · rw [if_pos hy] at h
      exact h
    · rw [if_neg hy] at h
      exact List.mem_cons_of_mem y (ih h)

theorem suffixFrom_head_id {ns : List TextNode} {i : TextNodeID} {n : TextNode}
    {rest : List TextNode} (h : suffixFrom ns i = n :: rest) : n.id = i := by
  induction ns with
  | nil => cases h
  | cons y ys ih =>
    unfold suffixFrom at h
    by_cases hy : y.id = i
    · rw [if_pos hy] at h
      cases h
      exact hy
    · rw [if_neg hy] at h
      exact ih h

theorem upTo_suffixFrom (ns : List TextNode) (i : TextNodeID) :
    upTo (suffixFrom ns i) i = [] := by
  rcases h : suffixFrom ns i with _ | ⟨n, rest⟩
  · rfl
  · have := suffixFrom_head_id h
    simp [upTo, this]

theorem liveValues_append (xs ys : List TextNode) :
    liveValues (xs ++ ys) = liveValues xs ++ liveValues ys := by
  induction xs with
  | nil => rfl
  | cons x rest ih => simp [liveValues, ih]

theorem liveValues_map_of_preserve {g : TextNode → TextNode}
    (hg : ∀ m, (g m).value = m.value ∧ (g m).deletedAt = m.deletedAt) (xs : List TextNode) :
    liveValues (xs.map g) = liveValues xs := by
  induction xs with
  | nil => rfl
  | cons x rest ih =>
    simp only [List.map_cons, liveValues, ih, (hg x).1, (hg x).2]

theorem id_inj_of_nodup {ns : List TextNode} (h : (ns.map (fun n => n.id)).Nodup)
    {a b : TextNode} (ha : a ∈ ns) (hb : b ∈ ns) (hab : a.id = b.id) : a = b :=
  List.inj_on_of_nodup_map h ha hb hab

theorem not_mem_post_of_nodup {pre post : List TextNode} {n : TextNode}
    (hnd : ((pre ++ n :: post).map (fun m => m.id)).Nodup) :
    ∀ m ∈ post, m.id ≠ n.id := by
  intro m hm heq
  rw [List.map_append, List.map_cons] at hnd
  have h2 := (List.nodup_append.mp hnd).2.1
  rw [List.nodup_cons] at h2
  exact h2.1 (heq ▸ List.mem_map_of_mem (fun x => x.id) hm)

theorem insNextPatch_id (j : Option TextNodeID) (sid : TextNodeID) (m : TextNode) :
    (insNextPatch j sid m).id = m.id := by
  unfold insNextPatch
  by_cases h : some m.id = j
  · rw [if_pos h]
  · rw [if_neg h]

theorem insNextPatch_value (j : Option TextNodeID) (sid : TextNodeID) (m : TextNode) :
    (insNextPatch j sid m).value = m.value ∧ (insNextPatch j sid m).deletedAt = m.deletedAt := by
  unfold insNextPatch
  by_cases h : some m.id = j
  · rw [if_pos h]
    exact ⟨rfl, rfl⟩
  · rw [if_neg h]
    exact ⟨rfl, rfl⟩

theorem map_guard_of_ne {l : List TextNode} {i : TextNodeID} {f h : TextNode → TextNode}
    (hl : ∀ m ∈ l, m.id ≠ i) :
    l.map (fun m => if m.id = i then f m else h m) = l.map h := by
  induction l with
  | nil => rfl
  | cons x rest ih =>
    simp only [List.map_cons, if_neg (hl x (List.mem_cons_self x rest))]
    rw [ih fun m hm => hl m (List.mem_cons_of_mem x hm)]

/-! ## Behaviour of splitTextNode -/

theorem splitTextNode_zero {s : RGATreeSplit} {nid : TextNodeID} {n : TextNode}
    (hf : findNode s.nodes nid = some n) :
    s.splitTextNode nid 0 = (s, some nid) := by
  simp [RGATreeSplit.splitTextNode, hf]

theorem splitTextNode_contentLen {s : RGATreeSplit} {nid : TextNodeID} {n : TextNode} {k : Nat}
    (hf : findNode s.nodes nid = some n) (h0 : ¬k = 0) (hk : k = n.contentLen) :
    s.splitTextNode nid k = (s, (nextAfter s.nodes nid).map (fun m => m.id)) := by
  subst hk
  simp [RGATreeSplit.splitTextNode, hf, h0]

theorem splitTextNode_interior {s : RGATreeSplit} {nid : TextNodeID} {k : Nat} {n : TextNode}
    (hnd : (s.nodes.map (fun m => m.id)).Nodup)
    (hf : findNode s.nodes nid = some n) (h0 : ¬k = 0) (hlt : k < n.contentLen) :
    ∃ pre post,
      s.nodes = pre ++ n :: post ∧ (∀ m ∈ pre, m.id ≠ nid) ∧ (∀ m ∈ post, m.id ≠ nid) ∧
        n.id = nid ∧
        (s.splitTextNode nid k).1.nodes =
          pre.map (insNextPatch n.insNextI (nid.splitID k)) ++
            { n with value := n.value.take k, insNextI := some (nid.splitID k) } ::
              (⟨nid.splitID k, n.value.drop k, none, some nid, n.insNextI⟩ : TextNode) ::
                post.map (insNextPatch n.insNextI (nid.splitID k)) ∧
        (s.splitTextNode nid k).2 = some (nid.splitID k) := by
  obtain ⟨pre, post, hsplit, hpre, hid⟩ := findNode_split hf
  have hpost : ∀ m ∈ post, m.id ≠ nid := by
    intro m hm
    rw [← hid]
    exact not_mem_post_of_nodup (hsplit ▸ hnd) m hm
  have hklen : ¬k = n.contentLen := Nat.ne_of_lt hlt
  have hklen2 : ¬n.contentLen < k := by omega
  refine ⟨pre, post, hsplit, hpre, hpost, hid, ?_, ?_⟩
  · simp only [RGATreeSplit.splitTextNode, hf, if_neg h0, if_neg hklen, if_neg hklen2]
    rw [hsplit, List.map_append, List.map_cons, if_pos hid,
      map_guard_of_ne hpre, map_guard_of_ne hpost]
    have hpre2 : ∀ m ∈ pre.map (insNextPatch n.insNextI (nid.splitID k)), m.id ≠ nid := by
      intro m hm
      obtain ⟨m0, hm0, hmeq⟩ := List.mem_map.mp hm
      rw [← hmeq, insNextPatch_id]
      exact hpre m0 hm0
    have hid2 : ({ n with value := n.value.take k, insNextI := some (nid.splitID k) }
        : TextNode).id = nid := hid
    rw [insertAfterL_of_decomp hpre2 hid2]
  · simp only [RGATreeSplit.splitTextNode, hf, if_neg h0, if_neg hklen, if_neg hklen2]

theorem splitTextNode_state_of_noSplit {s : RGATreeSplit} {nid : TextNodeID} {k : Nat}
    (h : ∀ n, findNode s.nodes nid = some n → k = 0 ∨ k = n.contentLen ∨ n.contentLen < k) :
    (s.splitTextNode nid k).1 = s := by
  rcases hf : findNode s.nodes nid with _ | n
  · simp [RGATreeSplit.splitTextNode, hf]
  · rcases h n hf with hk | hk | hk
    · simp [RGATreeSplit.splitTextNode, hf, hk]
    · by_cases h0 : k = 0
      · simp [RGATreeSplit.splitTextNode, hf, h0]
      · rw [splitTextNode_contentLen hf h0 hk]
    · have h0 : ¬k = 0 := by omega
      have h1 : ¬k = n.contentLen := by omega
      simp [RGATreeSplit.splitTextNode, hf, h0, h1, hk]

/-! ## Concrete fixtures used by witnesses and counterexamples -/

/-- Ticket `(1, 0, actor 1)`. -/
def t1A : Ticket := ⟨1, 0, 1⟩

/-- Ticket `(2, 0, actor 2)`. -/
def t2B : Ticket := ⟨2, 0, 2⟩

/-- Ticket `(3, 0, actor 3)`. -/
def t3C : Ticket := ⟨3, 0, 3⟩

/-- Ticket `(4, 0, actor 4)`. -/
def t4D : Ticket := ⟨4, 0, 4⟩

/-- A live node `"AB"` created at `t1A`. -/
def nodeAB : TextNode := ⟨⟨t1A, 0⟩, ['A', 'B'], none, none, none⟩

/-- A document holding the single node `"AB"`. -/
def sampleAB : RGATreeSplit := ⟨[initialHeadNode, nodeAB]⟩

/-- The node `"AB"` tombstoned at `t2B`. -/
def tombAB : TextNode := ⟨⟨t1A, 0⟩, ['A', 'B'], some t2B, none, none⟩

/-- A document holding the single tombstoned node `"AB"`. -/
def sampleTomb : RGATreeSplit := ⟨[initialHeadNode, tombAB]⟩

/-- A live node `"A"` created at `t1A`. -/
def nodeA : TextNode := ⟨⟨t1A, 0⟩, ['A'], none, none, none⟩

/-- A live node `"B"` created at `t2B`. -/
def nodeB : TextNode := ⟨⟨t2B, 0⟩, ['B'], none, none, none⟩

/-- A document holding the two independent nodes `"A"` and `"B"`. -/
def sampleTwo : RGATreeSplit := ⟨[initialHeadNode, nodeA, nodeB]⟩

/-! ## C4: splitTextNode -/

/-- C4.  `splitTextNode(node, k)` performs no split when `k = 0` (the left
result is the node itself) and when `k = contentLen(node)` (the right
result is `node.next`); for `0 < k < contentLen(node)` it creates a fresh
node with id `(node.id.createdAt, node.id.offset + k)` carrying the
content from position `k` onward, truncates the node's content to its
first `k` code units, inserts the fresh node immediately after the node
(hence into the list and the two derived indices), and links it between
the node and the node's former `insNext` in the `insPrev`/`insNext`
chain. -/
theorem C4_splitTextNode_cases (s : RGATreeSplit) (nid : TextNodeID) (k : Nat) (n : TextNode)
    (hnd : (s.nodes.map (fun m => m.id)).Nodup)
    (hf : findNode s.nodes nid = some n) :
    (k = 0 → s.splitTextNode nid k = (s, some nid)) ∧
    (¬k = 0 → k = n.contentLen →
      s.splitTextNode nid k = (s, (nextAfter s.nodes nid).map (fun m => m.id))) ∧
    (¬k = 0 → k < n.contentLen →
      ∃ pre post,
        s.nodes = pre ++ n :: post ∧ n.id = nid ∧
        (s.splitTextNode nid k).1.nodes =
          pre.map (insNextPatch n.insNextI (nid.splitID k)) ++
            { n with value := n.value.take k, insNextI := some (nid.splitID k) } ::
              (⟨nid.splitID k, n.value.drop k, none, some nid, n.insNextI⟩ : TextNode) ::
                post.map (insNextPatch n.insNextI (nid.splitID k)) ∧
        (s.splitTextNode nid k).2 = some (nid.splitID k)) := by
  refine ⟨?_, ?_, ?_⟩
  · intro hk
    subst hk
    exact splitTextNode_zero hf
  · intro h0 hk
    exact splitTextNode_contentLen hf h0 hk
  · intro h0 hlt
    obtain ⟨pre, post, hsplit, _, _, hid, hres, hsid⟩ := splitTextNode_interior hnd hf h0 hlt
    exact ⟨pre, post, hsplit, hid, hres, hsid⟩

/-- Witness for C4 at the document `"AB"`, split at `k = 1`. -/
theorem C4_splitTextNode_cases_witness :
    (1 = 0 → sampleAB.splitTextNode ⟨t1A, 0⟩ 1 = (sampleAB, some ⟨t1A, 0⟩)) ∧
    (¬1 = 0 → 1 = nodeAB.contentLen →
      sampleAB.splitTextNode ⟨t1A, 0⟩ 1 =
        (sampleAB, (nextAfter sampleAB.nodes ⟨t1A, 0⟩).map (fun m => m.id))) ∧
    (¬1 = 0 → 1 < nodeAB.contentLen →
      ∃ pre post,
        sampleAB.nodes = pre ++ nodeAB :: post ∧ nodeAB.id = ⟨t1A, 0⟩ ∧
        (sampleAB.splitTextNode ⟨t1A, 0⟩ 1).1.nodes =
          pre.map (insNextPatch nodeAB.insNextI ((⟨t1A, 0⟩ : TextNodeID).splitID 1)) ++
            (⟨nodeAB.id, nodeAB.value.take 1, nodeAB.deletedAt, nodeAB.insPrevI,
                some ((⟨t1A, 0⟩ : TextNodeID).splitID 1)⟩ : TextNode) ::
              (⟨(⟨t1A, 0⟩ : TextNodeID).splitID 1, nodeAB.value.drop 1, none, some ⟨t1A, 0⟩,
                  nodeAB.insNextI⟩ : TextNode) ::
                post.map (insNextPatch nodeAB.insNextI ((⟨t1A, 0⟩ : TextNodeID).splitID 1)) ∧
        (sampleAB.splitTextNode ⟨t1A, 0⟩ 1).2 = some ((⟨t1A, 0⟩ : TextNodeID).splitID 1)) :=
  C4_splitTextNode_cases sampleAB ⟨t1A, 0⟩ 1 nodeAB (by decide) (by decide)

/-! ## C7: splitting and the visible string -/

/-- C7 is refuted on the code: splitting a tombstoned node makes its tail
visible again, because `TextNode.split` builds the fresh node with
`newTextNode`, which leaves `deletedAt` unset.  Splitting the tombstoned
`"AB"` at `k = 1` turns the empty visible string into `"B"`. -/
theorem C7_split_counterexample :
    sampleTomb.marshal = [] ∧
      (sampleTomb.splitTextNode ⟨t1A, 0⟩ 1).1.marshal = ['B'] ∧
      ¬(sampleTomb.splitTextNode ⟨t1A, 0⟩ 1).1.marshal = sampleTomb.marshal := by
  refine ⟨rfl, rfl, ?_⟩
  decide

/-- C7 (amended).  Splitting a node of the chain (other than the sentinel
head) leaves `marshal()` unchanged whenever the node is live, and at the
boundary offsets `k = 0` and `k = contentLen` for every node; for a
tombstoned node at an interior offset the code makes the tail visible, as
the counterexample shows. -/
theorem C7_split_preserves_marshal (s : RGATreeSplit) (nid : TextNodeID) (k : Nat) (n : TextNode)
    (hnd : (s.nodes.map (fun m => m.id)).Nodup)
    (hf : findNode s.nodes nid = some n)
    (hmem : n ∈ s.nodes.tail)
    (hk : k ≤ n.contentLen)
    (hcase : n.deletedAt = none ∨ k = 0 ∨ k = n.contentLen) :
    (s.splitTextNode nid k).1.marshal = s.marshal := by
  by_cases hk0 : k = 0
  · rw [splitTextNode_state_of_noSplit]
    intro n2 hf2
    rw [hf] at hf2
    cases hf2
    exact Or.inl hk0
  by_cases hklen : k = n.contentLen
  · rw [splitTextNode_state_of_noSplit]
    intro n2 hf2
    rw [hf] at hf2
    cases hf2
    exact Or.inr (Or.inl hklen)
  have hlive : n.deletedAt = none := by tauto
  have hlt : k < n.contentLen := by omega
  obtain ⟨pre, post, hsplit, hpre, hpost, hid, hres, _⟩ := splitTextNode_interior hnd hf hk0 hlt
  rcases pre with _ | ⟨h0, pre2⟩
  · exfalso
    rw [hsplit] at hmem
    simp only [List.nil_append, List.tail_cons] at hmem
    exact hpost n hmem hid
  · unfold RGATreeSplit.marshal
    rw [hres, hsplit]
    simp only [List.cons_append, List.tail_cons, List.map_cons]
    rw [liveValues_append, liveValues_append,
      liveValues_map_of_preserve (insNextPatch_value n.insNextI (nid.splitID k)) pre2]
    simp only [liveValues, hlive]
    rw [liveValues_map_of_preserve (insNextPatch_value n.insNextI (nid.splitID k)) post]
    congr 1
    rw [← List.append_assoc, List.take_append_drop]

/-- Witness for the amended C7: splitting the live `"AB"` node at `k = 1`
leaves the visible string unchanged. -/
theorem C7_split_preserves_marshal_witness :
    (sampleAB.splitTextNode ⟨t1A, 0⟩ 1).1.marshal = sampleAB.marshal :=
  C7_split_preserves_marshal sampleAB ⟨t1A, 0⟩ 1 nodeAB (by decide) (by decide) (by decide)
    (by decide) (Or.inl rfl)

/-! ## C10: marshal -/

theorem liveValues_eq_flatten (xs : List TextNode) :
    liveValues xs = ((xs.filter (fun n => n.deletedAt.isNone)).map (fun n => n.value)).flatten := by
  induction xs with
  | nil => rfl
  | cons x rest ih =>
    rcases hx : x.deletedAt with _ | d
    · simp [liveValues, List.filter_cons, hx, ih]
    · simp [liveValues, List.filter_cons, hx, ih]

/-- C10.  `marshal()` is exactly the concatenation, in traversal order
starting from the node after `initialHead`, of the values of the nodes
whose `deletedAt` is unset; a tombstoned node anywhere in the chain
contributes nothing to the result. -/
theorem C10_marshal_spec (s : RGATreeSplit) :
    s.marshal =
      ((s.nodes.tail.filter (fun n => n.deletedAt.isNone)).map (fun n => n.value)).flatten ∧
    (∀ pre x post, s.nodes.tail = pre ++ x :: post → ¬x.deletedAt = none →
      s.marshal = liveValues pre ++ liveValues post) := by
  constructor
  · exact liveValues_eq_flatten s.nodes.tail
  · intro pre x post htail hx
    rcases hd : x.deletedAt with _ | d
    · exact absurd hd hx
    · unfold RGATreeSplit.marshal
      rw [htail, liveValues_append]
      simp [liveValues, hd]

/-- Witness for C10 at the tombstoned document: the visible string is the
flattened live content, and the tombstone contributes nothing. -/
theorem C10_marshal_spec_witness :
    sampleTomb.marshal =
      ((sampleTomb.nodes.tail.filter (fun n => n.deletedAt.isNone)).map
        (fun n => n.value)).flatten ∧
    sampleTomb.marshal = liveValues [] ++ liveValues [] :=
  ⟨(C10_marshal_spec sampleTomb).1,
    (C10_marshal_spec sampleTomb).2 [] tombAB [] rfl (by decide)⟩

/-! ## C3: findBoundary validation -/

/-- The `Text` fixture wrapping the `"AB"` document. -/
def textAB : Text := ⟨sampleAB, t1A⟩

/-- C3 is refuted on the code: `findBoundary` (and `Text.FindBoundary`,
which merely delegates) performs no validation at all; its Go signature
has no error result.  Called with `from = 2 > to = 1`, both inside
`[0, 2]`, on the document `"AB"`, it returns the two resolved positions
instead of failing with `InvalidPosition`. -/
theorem C3_findBoundary_counterexample :
    sampleAB.findBoundary 2 1 = (⟨⟨t1A, 0⟩, 2⟩, ⟨⟨t1A, 0⟩, 1⟩) ∧
    textAB.FindBoundary 2 1 = (⟨⟨t1A, 0⟩, 2⟩, ⟨⟨t1A, 0⟩, 1⟩) := by
  constructor <;> rfl

theorem findPosAux_id_mem (rest : List TextNode) :
    ∀ (n : TextNode) (k : Nat), (findPosAux n rest k).id ∈ (n :: rest).map (fun m => m.id) := by
  induction rest with
  | nil =>
    intro n k
    simp [findPosAux]
  | cons m rs ih =>
    intro n k
    by_cases h : k ≤ n.len
    · simp [findPosAux, h]
    · simp only [findPosAux, if_neg h]
      have := ih m (k - n.len)
      simp only [List.map_cons, List.mem_cons] at this ⊢
      tauto

/-- C3 (amended).  `findBoundary` performs no order or range validation
and cannot fail: for every pair of integer offsets, including `from > to`
and offsets outside `[0, totalVisibleLength]`, it returns the pair of
positions resolved by `findTextNodePos` (sharing the `from` position when
the offsets coincide), and each returned position names a node present in
the structure; `Text.FindBoundary` delegates to it unchanged. -/
theorem C3_findBoundary_noValidation (s : RGATreeSplit) (f t : Nat) (hne : ¬s.nodes = []) :
    s.findBoundary f t =
      (s.findTextNodePos f, if f = t then s.findTextNodePos f else s.findTextNodePos t) ∧
    (s.findBoundary f t).1.id ∈ s.nodes.map (fun n => n.id) ∧
    (s.findBoundary f t).2.id ∈ s.nodes.map (fun n => n.id) ∧
    (∀ c : Ticket, Text.FindBoundary ⟨s, c⟩ f t = s.findBoundary f t) := by
  have hmem : ∀ k : Nat, (s.findTextNodePos k).id ∈ s.nodes.map (fun n => n.id) := by
    intro k
    rcases hs : s.nodes with _ | ⟨n, rest⟩
    · exact absurd hs hne
    · unfold RGATreeSplit.findTextNodePos
      rw [hs]
      exact findPosAux_id_mem rest n k
  refine ⟨?_, ?_, ?_, fun c => rfl⟩
  · by_cases h : f = t <;> simp [RGATreeSplit.findBoundary, h]
  · unfold RGATreeSplit.findBoundary
    by_cases h : f = t <;> simp only [if_pos, if_neg, h] <;> exact hmem _
  · unfold RGATreeSplit.findBoundary
    by_cases h : f = t
    · rw [if_pos h]
      exact hmem _
    · rw [if_neg h]
      exact hmem _

/-- Witness for the amended C3 at `from = 2 > to = 1` on `"AB"`. -/
theorem C3_findBoundary_noValidation_witness :
    sampleAB.findBoundary 2 1 =
      (sampleAB.findTextNodePos 2,
        if 2 = 1 then sampleAB.findTextNodePos 2 else sampleAB.findTextNodePos 1) ∧
    (sampleAB.findBoundary 2 1).1.id ∈ sampleAB.nodes.map (fun n => n.id) ∧
    (sampleAB.findBoundary 2 1).2.id ∈ sampleAB.nodes.map (fun n => n.id) ∧
    (∀ c : Ticket, Text.FindBoundary ⟨sampleAB, c⟩ 2 1 = sampleAB.findBoundary 2 1) :=
  C3_findBoundary_noValidation sampleAB 2 1 (by decide)

/-! ## C2: convergence across permutations of the same edits -/

/-- The boundary position at the head of the document. -/
def posHead0 : TextNodePos := ⟨initialTextNodeID, 0⟩

/-- The boundary position at the end of the node `"AB"`. -/
def posAB2 : TextNodePos := ⟨⟨t1A, 0⟩, 2⟩

/-- The position in the middle of the node `"AB"`. -/
def posAB1 : TextNodePos := ⟨⟨t1A, 0⟩, 1⟩

/-- The edit tuple `(posHead0, posAB2, map (actor 1 ↦ t1A), "", t2B)`:
actor 2 deletes the whole of `"AB"` under the bound it observed. -/
def runDeleteAB (s : RGATreeSplit) : Option RGATreeSplit :=
  (s.edit posHead0 posAB2 (some [(1, t1A)]) [] t2B).map (fun x => x.1)

/-- The edit tuple `(posAB1, posAB1, nil, "x", t3C)`: actor 3 inserts
`"x"` in the middle of `"AB"`. -/
def runInsertX (s : RGATreeSplit) : Option RGATreeSplit :=
  (s.edit posAB1 posAB1 none ['x'] t3C).map (fun x => x.1)

/-- C2 fails on the code: the same two edit tuples applied to the same
initial document `"AB"` in the two possible orders marshal to `"xB"`
versus `"x"`.  Applying the delete first tombstones `"AB"`; the later
insert then splits the tombstoned node, and `TextNode.split` builds the
tail fragment with an unset `deletedAt`, resurrecting `"B"`.  In the other
order both fragments are live when the delete arrives, so both are
tombstoned and only `"x"` survives.  The `editedAt` tickets `t2B`, `t3C`
are unique across actors, as the claim requires. -/
theorem C2_convergence_codebug :
    ((runDeleteAB sampleAB).bind runInsertX).map RGATreeSplit.marshal = some ['x', 'B'] ∧
    ((runInsertX sampleAB).bind runDeleteAB).map RGATreeSplit.marshal = some ['x'] ∧
    ¬((runDeleteAB sampleAB).bind runInsertX).map RGATreeSplit.marshal =
        ((runInsertX sampleAB).bind runDeleteAB).map RGATreeSplit.marshal := by
  refine ⟨by decide, by decide, by decide⟩

/-! ## C8: floor queries on the id index -/

/-- The floor-scan invariant: the running best is a scanned node whose key
is not above the query and dominates every scanned key not above the
query; when it is `none`, no scanned key is eligible. -/
def FloorInv (i : TextNodeID) (best : Option TextNode) (seen : List TextNode) : Prop :=
  match best with
  | none => ∀ m ∈ seen, ¬idLe m.id i
  | some x => x ∈ seen ∧ idLe x.id i ∧ ∀ m ∈ seen, idLe m.id i → idLe m.id x.id

instance (x y : TextNodeID) : Decidable (idLe x y) :=
  inferInstanceAs (Decidable (¬x.compareID y = Ordering.gt))

theorem floorStep_inv {i : TextNodeID} {best : Option TextNode} {seen : List TextNode}
    (h : FloorInv i best seen) (n : TextNode) :
    FloorInv i (floorStep i best n) (seen ++ [n]) := by
  rcases best with _ | x
  · by_cases hn : n.id.compareID i = Ordering.gt
    · simp only [floorStep, if_pos hn]
      intro m hm
      rcases List.mem_append.mp hm with hm | hm
      · exact h m hm
      · have hmn : m = n := List.mem_singleton.mp hm
        rw [hmn]
        intro hle
        exact hle hn
    · simp only [floorStep, if_neg hn]
      have hni : idLe n.id i := hn
      refine ⟨List.mem_append_right _ (List.mem_singleton_self n), hni, ?_⟩
      intro m hm hmi
      rcases List.mem_append.mp hm with hm | hm
      · exact absurd hmi (h m hm)
      · have hmn : m = n := List.mem_singleton.mp hm
        rw [hmn]
        exact idLe_refl n.id
  · obtain ⟨hx1, hx2, hx3⟩ := h
    by_cases hn : n.id.compareID i = Ordering.gt
    · simp only [floorStep, if_pos hn]
      refine ⟨List.mem_append_left _ hx1, hx2, ?_⟩
      intro m hm hmi
      rcases List.mem_append.mp hm with hm | hm
      · exact hx3 m hm hmi
      · have hmn : m = n := List.mem_singleton.mp hm
        rw [hmn] at hmi
        exact absurd hn hmi
    · have hni : idLe n.id i := hn
      by_cases hlt : x.id.compareID n.id = Ordering.lt
      · simp only [floorStep, if_neg hn, if_pos hlt]
        refine ⟨List.mem_append_right _ (List.mem_singleton_self n), hni, ?_⟩
        intro m hm hmi
        rcases List.mem_append.mp hm with hm | hm
        · exact idLe_trans (hx3 m hm hmi) (idLe_of_lt hlt)
        · have hmn : m = n := List.mem_singleton.mp hm
          rw [hmn]
          exact idLe_refl n.id
      · simp only [floorStep, if_neg hn, if_neg hlt]
        refine ⟨List.mem_append_left _ hx1, hx2, ?_⟩
        intro m hm hmi
        rcases List.mem_append.mp hm with hm | hm
        · exact hx3 m hm hmi
        · have hmn : m = n := List.mem_singleton.mp hm
          rw [hmn]
          exact idLe_of_not_lt hlt

theorem floorLLRB_inv (ns : List TextNode) (i : TextNodeID) :
    FloorInv i (floorLLRB ns i) ns := by
  have main : ∀ (l : List TextNode) (best : Option TextNode) (seen : List TextNode),
      FloorInv i best seen → FloorInv i (l.foldl (floorStep i) best) (seen ++ l) := by
    intro l
    induction l with
    | nil =>
      intro best seen h
      simpa using h
    | cons x rest ih =>
      intro best seen h
      have h3 := ih (floorStep i best x) (seen ++ [x]) (floorStep_inv h x)
      simpa [List.append_assoc] using h3
  have h0 : FloorInv i none [] := by
    intro m hm
    cases hm
  simpa using main ns none [] h0

theorem floorLLRB_eq_some {ns : List TextNode} {i : TextNodeID} {x : TextNode}
    (h : floorLLRB ns i = some x) :
    x ∈ ns ∧ idLe x.id i ∧ ∀ m ∈ ns, idLe m.id i → idLe m.id x.id := by
  have hinv := floorLLRB_inv ns i
  rw [h] at hinv
  exact hinv

theorem floorLLRB_eq_none {ns : List TextNode} {i : TextNodeID}
    (h : floorLLRB ns i = none) : ∀ m ∈ ns, ¬idLe m.id i := by
  have hinv := floorLLRB_inv ns i
  rw [h] at hinv
  exact hinv

theorem floorLLRB_greatest {ns : List TextNode} {i : TextNodeID} {a : TextNode}
    (hnd : (ns.map (fun n => n.id)).Nodup) (ha : a ∈ ns) (hai : idLe a.id i)
    (hub : ∀ m ∈ ns, idLe m.id i → idLe m.id a.id) :
    floorLLRB ns i = some a := by
  rcases h : floorLLRB ns i with _ | x
  · exact absurd hai (floorLLRB_eq_none h a ha)
  · obtain ⟨hx1, hx2, hx3⟩ := floorLLRB_eq_some h
    have h1 : idLe a.id x.id := hx3 a ha hai
    have h2 : idLe x.id a.id := hub x hx1 hx2
    rw [id_inj_of_nodup hnd hx1 ha (idLe_antisymm h2 h1)]

/-- C8 is refuted on the code: for the synthetic id `((0,0,actor 5), 0)`,
which lies strictly between the adjacent keys `(InitialTicket, 0)` (the
head) and `((1,0,actor 1), 0)` (the node `"AB"`), the raw LLRB floor
returns the head, but `findFloorTextNode` — the floor lookup the engine
exposes — filters the answer to `nil` because the found key neither
equals the query nor shares its `createdAt`. -/
theorem C8_floor_counterexample :
    initialHeadNode ∈ sampleAB.nodes ∧ nodeAB ∈ sampleAB.nodes ∧
    idLe initialHeadNode.id ⟨⟨0, 0, 5⟩, 0⟩ ∧ ¬initialHeadNode.id = ⟨⟨0, 0, 5⟩, 0⟩ ∧
    ¬idLe nodeAB.id ⟨⟨0, 0, 5⟩, 0⟩ ∧
    floorLLRB sampleAB.nodes ⟨⟨0, 0, 5⟩, 0⟩ = some initialHeadNode ∧
    sampleAB.findFloorTextNode ⟨⟨0, 0, 5⟩, 0⟩ = none := by
  decide

/-- C8 (amended).  For every node `n` present in the structure the floor
lookup on `n.id` returns `n` itself.  For a synthetic id `i` whose floor
among the keys is the node `a` (so `a.id ≤ i` and `a.id` dominates every
key `≤ i`, as when `i` lies strictly between `a` and the next key), the
raw LLRB floor returns `a`; `findFloorTextNode` returns `a` exactly when
`i` equals `a.id` or shares its `createdAt`, and `nil` otherwise. -/
theorem C8_floor_amended (s : RGATreeSplit)
    (hnd : (s.nodes.map (fun n => n.id)).Nodup) :
    (∀ n ∈ s.nodes, s.findFloorTextNode n.id = some n) ∧
    (∀ (i : TextNodeID) (a : TextNode), a ∈ s.nodes → idLe a.id i →
      (∀ m ∈ s.nodes, idLe m.id i → idLe m.id a.id) →
      floorLLRB s.nodes i = some a ∧
        s.findFloorTextNode i =
          if a.id = i ∨ a.id.createdAt = i.createdAt then some a else none) := by
  constructor
  · intro n hn
    have hfl : floorLLRB s.nodes n.id = some n :=
      floorLLRB_greatest hnd hn (idLe_refl n.id) (fun m _ hm => hm)
    simp only [RGATreeSplit.findFloorTextNode, hfl]
    rw [if_neg]
    intro hcon
    exact hcon.1 ((TextNodeID.compareID_eq_iff n.id n.id).mpr rfl)
  · intro i a ha hai hub
    have hfl : floorLLRB s.nodes i = some a := floorLLRB_greatest hnd ha hai hub
    refine ⟨hfl, ?_⟩
    simp only [RGATreeSplit.findFloorTextNode, hfl]
    by_cases hcase : a.id = i ∨ a.id.createdAt = i.createdAt
    · rw [if_pos hcase, if_neg]
      intro hcon
      rcases hcase with hcase | hcase
      · exact hcon.1 ((TextNodeID.compareID_eq_iff a.id i).mpr hcase)
      · exact hcon.2 ((Ticket.compareT_eq_iff a.id.createdAt i.createdAt).mpr hcase)
    · rw [if_neg hcase, if_pos]
      push_neg at hcase
      constructor
      · intro hcon
        exact hcase.1 ((TextNodeID.compareID_eq_iff a.id i).mp hcon)
      · intro hcon
        exact hcase.2 ((Ticket.compareT_eq_iff a.id.createdAt i.createdAt).mp hcon)

/-! ## C5: the rightward slide of findTextNodeWithSplit -/

theorem slideAux_eq (t : Ticket) :
    ∀ (rest : List TextNode) (n : TextNode),
      slideAux n rest t =
        ((rest.takeWhile (fun m => m.id.createdAt.after t)).getLastD n,
          (rest.dropWhile (fun m => m.id.createdAt.after t)).head?) := by
  intro rest
  induction rest with
  | nil =>
    intro n
    rfl
  | cons m rs ih =>
    intro n
    by_cases h : m.id.createdAt.after t = true
    · simp only [slideAux, List.takeWhile_cons, List.dropWhile_cons, h, if_true, if_pos, ih m]
      simp only [List.getLastD_eq_getLast?, Prod.mk.injEq, and_true]
      cases htw : List.takeWhile (fun m => m.id.createdAt.after t) rs with
      | nil => rfl
      | cons y ys =>
        rw [List.getLast?_cons_cons]
        simp [List.getLast?_cons]
    · simp [slideAux, List.takeWhile_cons, List.dropWhile_cons, h]

theorem mem_takeWhile_pred (p : TextNode → Bool) :
    ∀ (l : List TextNode), ∀ m ∈ l.takeWhile p, p m = true := by
  intro l
  induction l with
  | nil =>
    intro m hm
    cases hm
  | cons x rest ih =>
    intro m hm
    by_cases h : p x = true
    · rw [List.takeWhile_cons_of_pos h] at hm
      rcases List.mem_cons.mp hm with hm | hm
      · rw [hm]
        exact h
      · exact ih m hm
    · rw [List.takeWhile_cons_of_neg (by simpa using h)] at hm
      cases hm

theorem head_dropWhile_neg (p : TextNode → Bool) :
    ∀ (l : List TextNode) (m : TextNode), (l.dropWhile p).head? = some m → p m = false := by
  intro l
  induction l with
  | nil =>
    intro m hm
    cases hm
  | cons x rest ih =>
    intro m hm
    by_cases h : p x = true
    · rw [List.dropWhile_cons_of_pos h] at hm
      exact ih m hm
    · rw [List.dropWhile_cons_of_neg (by simpa using h)] at hm
      cases hm
      simpa using h

/-- C5.  When `findTextNodeWithSplit` succeeds, its result is obtained
from the resolved (and possibly split) node `n0` by advancing rightward
past exactly the maximal consecutive run of following nodes whose
`createdAt` is after the edit's `editedAt`: the returned left node is the
last node of `n0 :: run`, every node of the run was created after
`editedAt`, and the returned right neighbour is the node immediately after
the run, which was not created after `editedAt` — so no node created after
`editedAt` lies between the returned left node and the insertion point
immediately after it. -/
theorem C5_slide_maximalRun (s : RGATreeSplit) (pos : TextNodePos) (editedAt : Ticket)
    (s1 : RGATreeSplit) (lid : TextNodeID) (r : Option TextNodeID)
    (h : s.findTextNodeWithSplit pos editedAt = some (s1, lid, r)) :
    ∃ nid rel n0 rest,
      s.resolveLeft pos = some (nid, rel) ∧
      s1 = (s.splitTextNode nid rel).1 ∧
      suffixFrom s1.nodes nid = n0 :: rest ∧
      (∀ m ∈ rest.takeWhile (fun m => m.id.createdAt.after editedAt),
        m.id.createdAt.after editedAt = true) ∧
      lid = ((rest.takeWhile (fun m => m.id.createdAt.after editedAt)).getLastD n0).id ∧
      r = ((rest.dropWhile (fun m => m.id.createdAt.after editedAt)).head?).map
        (fun m => m.id) ∧
      (∀ m, (rest.dropWhile (fun m2 => m2.id.createdAt.after editedAt)).head? = some m →
        ¬m.id.createdAt.after editedAt = true) := by
  rcases hr : s.resolveLeft pos with _ | ⟨nid, rel⟩
  · simp only [RGATreeSplit.findTextNodeWithSplit, hr] at h
    cases h
  · rcases hsuf : suffixFrom (s.splitTextNode nid rel).1.nodes nid with _ | ⟨n0, rest⟩
    · simp only [RGATreeSplit.findTextNodeWithSplit, hr, hsuf] at h
      cases h
    · simp only [RGATreeSplit.findTextNodeWithSplit, hr, hsuf] at h
      rw [Option.some.injEq] at h
      obtain ⟨hs1, hrest⟩ := Prod.ext_iff.mp h
      obtain ⟨hlid, hrr⟩ := Prod.ext_iff.mp hrest
      dsimp only at hs1 hlid hrr
      refine ⟨nid, rel, n0, rest, rfl, hs1.symm, ?_, ?_, ?_, ?_, ?_⟩
      · rw [← hs1]
        exact hsuf
      · exact mem_takeWhile_pred _ rest
      · rw [← hlid, slideAux_eq]
      · rw [← hrr, slideAux_eq]
      · intro m hm
        have := head_dropWhile_neg _ rest m hm
        simp [this]

/-- The slide fixture: a single node created at `t3C`, later than the
`editedAt` ticket `t2B` of the edit being placed. -/
def nodeLateC : TextNode := ⟨⟨t3C, 0⟩, ['C'], none, none, none⟩

/-- A document whose only node was created after `t2B`. -/
def sampleLate : RGATreeSplit := ⟨[initialHeadNode, nodeLateC]⟩

/-- Witness for C5: resolving the head position with `editedAt = t2B`
slides past the concurrently inserted `t3C` node. -/
theorem C5_slide_maximalRun_witness :
    ∃ nid rel n0 rest,
      sampleLate.resolveLeft posHead0 = some (nid, rel) ∧
      sampleLate = (sampleLate.splitTextNode nid rel).1 ∧
      suffixFrom sampleLate.nodes nid = n0 :: rest ∧
      (∀ m ∈ rest.takeWhile (fun m => m.id.createdAt.after t2B),
        m.id.createdAt.after t2B = true) ∧
      (⟨t3C, 0⟩ : TextNodeID) =
        ((rest.takeWhile (fun m => m.id.createdAt.after t2B)).getLastD n0).id ∧
      (none : Option TextNodeID) =
        ((rest.dropWhile (fun m => m.id.createdAt.after t2B)).head?).map (fun m => m.id) ∧
      (∀ m, (rest.dropWhile (fun m2 => m2.id.createdAt.after t2B)).head? = some m →
        ¬m.id.createdAt.after t2B = true) :=
  C5_slide_maximalRun sampleLate posHead0 t2B sampleLate ⟨t3C, 0⟩ none (by decide)

/-! ## C1: deleteNodes -/

/-- The state component of one `deleteNodes` iteration. -/
def delStepState (maxMap : Option (List (Nat × Ticket))) (editedAt : Ticket)
    (st : RGATreeSplit) (n : TextNode) : RGATreeSplit :=
  if n.canDelete editedAt (boundFor maxMap n.id.createdAt.actor) then
    ⟨updateNode st.nodes n.id (fun m => { m with deletedAt := some editedAt })⟩
  else st

/-- The output-map component of one `deleteNodes` iteration. -/
def delStepMap (maxMap : Option (List (Nat × Ticket))) (editedAt : Ticket)
    (out : List (Nat × Ticket)) (n : TextNode) : List (Nat × Ticket) :=
  if n.canDelete editedAt (boundFor maxMap n.id.createdAt.actor) then
    insertMax out n.id.createdAt.actor n.id.createdAt
  else out

theorem deleteNodes_eq_pair (s : RGATreeSplit) (cands : List TextNode)
    (maxMap : Option (List (Nat × Ticket))) (editedAt : Ticket) :
    s.deleteNodes cands maxMap editedAt =
      (cands.foldl (delStepState maxMap editedAt) s,
        cands.foldl (delStepMap maxMap editedAt) []) := by
  have main : ∀ (l : List TextNode) (p : RGATreeSplit × List (Nat × Ticket)),
      l.foldl (deleteStep maxMap editedAt) p =
        (l.foldl (delStepState maxMap editedAt) p.1, l.foldl (delStepMap maxMap editedAt) p.2) := by
    intro l
    induction l with
    | nil =>
      intro p
      rfl
    | cons n rest ih =>
      intro p
      rw [List.foldl_cons, List.foldl_cons, List.foldl_cons, ih]
      congr 1 <;>
        by_cases hc : n.canDelete editedAt (boundFor maxMap n.id.createdAt.actor) = true <;>
          simp [deleteStep, delStepState, delStepMap, hc]
  exact main cands (s, [])

theorem delFold_state (maxMap : Option (List (Nat × Ticket))) (editedAt : Ticket) :
    ∀ (cands : List TextNode) (ns : List TextNode),
      (cands.foldl (delStepState maxMap editedAt) ⟨ns⟩).nodes =
        ns.map (fun m =>
          if ∃ n ∈ cands, n.id = m.id ∧
              n.canDelete editedAt (boundFor maxMap n.id.createdAt.actor) = true
          then { m with deletedAt := some editedAt } else m) := by
  intro cands
  induction cands with
  | nil =>
    intro ns
    simp
  | cons n rest ih =>
    intro ns
    rw [List.foldl_cons]
    by_cases hc : n.canDelete editedAt (boundFor maxMap n.id.createdAt.actor) = true
    · have hstep : delStepState maxMap editedAt ⟨ns⟩ n =
          ⟨ns.map (fun m => if m.id = n.id then { m with deletedAt := some editedAt } else m)⟩ := by
        simp [delStepState, hc, updateNode]
      rw [hstep, ih, List.map_map]
      apply List.map_congr_left
      intro m _
      simp only [Function.comp_apply]
      by_cases hm : m.id = n.id
      · rw [if_pos hm]
        have hset : ({ m with deletedAt := some editedAt } : TextNode).id = m.id := rfl
        have hcons : ∃ x ∈ n :: rest, x.id = m.id ∧
            x.canDelete editedAt (boundFor maxMap x.id.createdAt.actor) = true :=
          ⟨n, List.mem_cons_self n rest, hm.symm, hc⟩
        rw [if_pos hcons]
        by_cases h2 : ∃ x ∈ rest, x.id = ({ m with deletedAt := some editedAt } : TextNode).id ∧
            x.canDelete editedAt (boundFor maxMap x.id.createdAt.actor) = true
        · rw [if_pos h2]
        · rw [if_neg h2]
      · rw [if_neg hm]
        have hiff : (∃ x ∈ rest, x.id = m.id ∧
              x.canDelete editedAt (boundFor maxMap x.id.createdAt.actor) = true) ↔
            ∃ x ∈ n :: rest, x.id = m.id ∧
              x.canDelete editedAt (boundFor maxMap x.id.createdAt.actor) = true := by
          constructor
          · rintro ⟨x, hx, hx2⟩
            exact ⟨x, List.mem_cons_of_mem n hx, hx2⟩
          · rintro ⟨x, hx, hx2, hx3⟩
            rcases List.mem_cons.mp hx with hx | hx
            · exact absurd (hx ▸ hx2) fun he => hm he.symm
            · exact ⟨x, hx, hx2, hx3⟩
        rw [if_congr hiff rfl rfl]
    · have hstep : delStepState maxMap editedAt ⟨ns⟩ n = ⟨ns⟩ := by
        simp [delStepState, hc]
      rw [hstep, ih]
      apply List.map_congr_left
      intro m _
      have hiff : (∃ x ∈ n :: rest, x.id = m.id ∧
            x.canDelete editedAt (boundFor maxMap x.id.createdAt.actor) = true) ↔
          ∃ x ∈ rest, x.id = m.id ∧
            x.canDelete editedAt (boundFor maxMap x.id.createdAt.actor) = true := by
        constructor
        · rintro ⟨x, hx, hx2, hx3⟩
          rcases List.mem_cons.mp hx with hx | hx
          · exact absurd (hx ▸ hx3) hc
          · exact ⟨x, hx, hx2, hx3⟩
        · rintro ⟨x, hx, hx2⟩
          exact ⟨x, List.mem_cons_of_mem n hx, hx2⟩
      rw [if_congr hiff rfl rfl]

theorem lookupA_append_none {xs : List (Nat × Ticket)} {a : Nat}
    (h : lookupA xs a = none) (ys : List (Nat × Ticket)) :
    lookupA (xs ++ ys) a = lookupA ys a := by
  induction xs with
  | nil => rfl
  | cons p rest ih =>
    rcases p with ⟨b, t⟩
    by_cases hb : b = a
    · simp [lookupA, hb] at h
    · simp only [lookupA, if_neg hb] at h
      simp only [List.cons_append, lookupA, if_neg hb]
      exact ih h

theorem lookupA_singleton (a : Nat) (c : Ticket) : lookupA [(a, c)] a = some c := by
  simp [lookupA]

theorem lookupA_append_single_ne {a b : Nat} {c : Ticket} (h : ¬b = a) :
    ∀ xs : List (Nat × Ticket), lookupA (xs ++ [(a, c)]) b = lookupA xs b := by
  intro xs
  induction xs with
  | nil =>
    have h2 : ¬a = b := fun he => h he.symm
    simp [lookupA, h2]
  | cons p rest ih =>
    rcases p with ⟨d, t⟩
    by_cases hd : d = b
    · simp [lookupA, hd]
    · simp only [List.cons_append, lookupA, if_neg hd]
      exact ih

theorem lookupA_setA (out : List (Nat × Ticket)) (a : Nat) (c : Ticket) :
    lookupA (setA out a c) a = some c := by
  induction out with
  | nil => simp [setA, lookupA]
  | cons p rest ih =>
    rcases p with ⟨b, t⟩
    by_cases hb : b = a
    · simp [setA, hb, lookupA]
    · simp only [setA, if_neg hb, lookupA]
      exact ih

theorem lookupA_setA_ne {a b : Nat} (out : List (Nat × Ticket)) (c : Ticket) (h : ¬b = a) :
    lookupA (setA out a c) b = lookupA out b := by
  induction out with
  | nil =>
    have h2 : ¬a = b := fun he => h he.symm
    simp [setA, lookupA, h2]
  | cons p rest ih =>
    rcases p with ⟨d, t⟩
    by_cases hd : d = a
    · have h2 : ¬a = b := fun he => h he.symm
      have h3 : ¬d = b := by
        rw [hd]
        exact h2
      simp only [setA, if_pos hd, lookupA, if_neg h2, if_neg h3]
    · simp only [setA, if_neg hd, lookupA]
      by_cases hdb : d = b
      · rw [if_pos hdb, if_pos hdb]
      · rw [if_neg hdb, if_neg hdb]
        exact ih

theorem insertMax_lookup_same (out : List (Nat × Ticket)) (a : Nat) (c : Ticket) :
    lookupA (insertMax out a c) a =
      some (match lookupA out a with
            | none => c
            | some mx => if c.after mx then c else mx) := by
  rcases h : lookupA out a with _ | mx
  · unfold insertMax
    rw [h, lookupA_append_none h, lookupA_singleton]
  · unfold insertMax
    simp only [h]
    by_cases hc : c.after mx = true
    · rw [if_pos hc, lookupA_setA]
      simp [hc]
    · rw [if_neg hc, h]
      simp [hc]

theorem insertMax_lookup_ne (out : List (Nat × Ticket)) (a b : Nat) (c : Ticket) (h : ¬b = a) :
    lookupA (insertMax out a c) b = lookupA out b := by
  unfold insertMax
  rcases hl : lookupA out a with _ | mx
  · simp only [hl]
    exact lookupA_append_single_ne h out
  · simp only [hl]
    by_cases hc : c.after mx = true
    · rw [if_pos hc]
      exact lookupA_setA_ne out c h
    · rw [if_neg hc]

/-- The invariant of the output map of `deleteNodes`: for every actor the
map holds an entry exactly when a node of that actor has been tombstoned,
and the entry is an attained upper bound (the maximum) of the creation
tickets of that actor's tombstoned nodes. -/
def MapInv (out : List (Nat × Ticket)) (dels : List TextNode) : Prop :=
  ∀ a : Nat,
    ((lookupA out a).isSome ↔ ∃ n ∈ dels, n.id.createdAt.actor = a) ∧
    (∀ c, lookupA out a = some c →
      (∃ n ∈ dels, n.id.createdAt.actor = a ∧ n.id.createdAt = c) ∧
      (∀ n ∈ dels, n.id.createdAt.actor = a → ¬n.id.createdAt.after c = true))

theorem mapInv_nil : MapInv [] [] := by
  intro a
  constructor
  · simp [lookupA]
  · intro c h
    cases h

theorem mapInv_step {out : List (Nat × Ticket)} {dels : List TextNode}
    (h : MapInv out dels) (n : TextNode) :
    MapInv (insertMax out n.id.createdAt.actor n.id.createdAt) (dels ++ [n]) := by
  intro a
  by_cases ha : a = n.id.createdAt.actor
  · subst ha
    have hsame := insertMax_lookup_same out n.id.createdAt.actor n.id.createdAt
    rcases hl : lookupA out n.id.createdAt.actor with _ | mx
    · simp only [hl] at hsame
      have hni : ¬∃ m ∈ dels, m.id.createdAt.actor = n.id.createdAt.actor := by
        rw [← (h n.id.createdAt.actor).1, hl]
        simp
      constructor
      · rw [hsame]
        constructor
        · intro _
          exact ⟨n, List.mem_append_right _ (List.mem_singleton_self n), rfl⟩
        · intro _
          simp
      · intro c hc
        rw [hsame] at hc
        cases hc
        constructor
        · exact ⟨n, List.mem_append_right _ (List.mem_singleton_self n), rfl, rfl⟩
        · intro m hm hma
          rcases List.mem_append.mp hm with hm | hm
          · exact absurd ⟨m, hm, hma⟩ hni
          · have hmn : m = n := List.mem_singleton.mp hm
            rw [hmn]
            simp [Ticket.after_irrefl]
    · obtain ⟨hiff, hprop⟩ := h n.id.createdAt.actor
      have hold := hprop mx hl
      by_cases hcafter : n.id.createdAt.after mx = true
      · simp only [hl] at hsame
        rw [if_pos hcafter] at hsame
        constructor
        · rw [hsame]
          constructor
          · intro _
            exact ⟨n, List.mem_append_right _ (List.mem_singleton_self n), rfl⟩
          · intro _
            simp
        · intro c hc
          rw [hsame] at hc
          cases hc
          constructor
          · exact ⟨n, List.mem_append_right _ (List.mem_singleton_self n), rfl, rfl⟩
          · intro m hm hma
            rcases List.mem_append.mp hm with hm | hm
            · intro hafter
              exact hold.2 m hm hma (Ticket.after_trans hafter hcafter)
            · have hmn : m = n := List.mem_singleton.mp hm
              rw [hmn]
              simp [Ticket.after_irrefl]
      · simp only [hl] at hsame
        rw [if_neg hcafter] at hsame
        constructor
        · rw [hsame]
          constructor
          · intro _
            exact ⟨n, List.mem_append_right _ (List.mem_singleton_self n), rfl⟩
          · intro _
            simp
        · intro c hc
          rw [hsame] at hc
          cases hc
          constructor
          · obtain ⟨m, hm, hma, hmc⟩ := hold.1
            exact ⟨m, List.mem_append_left _ hm, hma, hmc⟩
          · intro m hm hma
            rcases List.mem_append.mp hm with hm | hm
            · exact hold.2 m hm hma
            · have hmn : m = n := List.mem_singleton.mp hm
              rw [hmn]
              exact hcafter
  · have hne := insertMax_lookup_ne out n.id.createdAt.actor a n.id.createdAt ha
    obtain ⟨hiff, hprop⟩ := h a
    constructor
    · rw [hne, hiff]
      constructor
      · rintro ⟨m, hm, hma⟩
        exact ⟨m, List.mem_append_left _ hm, hma⟩
      · rintro ⟨m, hm, hma⟩
        rcases List.mem_append.mp hm with hm | hm
        · exact ⟨m, hm, hma⟩
        · have hmn : m = n := List.mem_singleton.mp hm
          rw [hmn] at hma
          exact absurd hma.symm ha
    · intro c hc
      rw [hne] at hc
      obtain ⟨hat, hub⟩ := hprop c hc
      constructor
      · obtain ⟨m, hm, hma, hmc⟩ := hat
        exact ⟨m, List.mem_append_left _ hm, hma, hmc⟩
      · intro m hm hma
        rcases List.mem_append.mp hm with hm | hm
        · exact hub m hm hma
        · have hmn : m = n := List.mem_singleton.mp hm
          rw [hmn] at hma
          exact absurd hma.symm ha

theorem delFold_map (maxMap : Option (List (Nat × Ticket))) (editedAt : Ticket) :
    ∀ (cands : List TextNode) (out : List (Nat × Ticket)) (dels : List TextNode),
      MapInv out dels →
      MapInv (cands.foldl (delStepMap maxMap editedAt) out)
        (dels ++ cands.filter
          (fun n => n.canDelete editedAt (boundFor maxMap n.id.createdAt.actor))) := by
  intro cands
  induction cands with
  | nil =>
    intro out dels h
    simpa using h
  | cons n rest ih =>
    intro out dels h
    rw [List.foldl_cons, List.filter_cons]
    by_cases hc : n.canDelete editedAt (boundFor maxMap n.id.createdAt.actor) = true
    · rw [if_pos hc]
      have h2 := ih (delStepMap maxMap editedAt out n) (dels ++ [n]) (by
        simp only [delStepMap, if_pos hc]
        exact mapInv_step h n)
      simpa [List.append_assoc] using h2
    · rw [if_neg hc]
      have h2 := ih (delStepMap maxMap editedAt out n) dels (by
        simp only [delStepMap, if_neg hc]
        exact h)
      exact h2

/-- C1.  In `deleteNodes` every candidate `n` is filtered against the
per-actor bound (`MaxTicket` when the map is nil, the mapped ticket when
the actor is present, else `InitialTicket`, as `boundFor` states); the
node with `n`'s id is tombstoned with `editedAt` exactly when `n`'s
creation ticket is not after that bound and `n` is live or tombstoned by
an earlier ticket (`canDelete`); and the returned map holds an entry for
exactly the actors of tombstoned candidates, each mapped to an attained
upper bound — the maximum — of the creation tickets of that actor's
tombstoned candidates. -/
theorem C1_deleteNodes_spec (s : RGATreeSplit) (cands : List TextNode)
    (maxMap : Option (List (Nat × Ticket))) (editedAt : Ticket) :
    (s.deleteNodes cands maxMap editedAt).1.nodes =
      s.nodes.map (fun m =>
        if ∃ n ∈ cands, n.id = m.id ∧
            n.canDelete editedAt (boundFor maxMap n.id.createdAt.actor) = true
        then { m with deletedAt := some editedAt } else m) ∧
    (∀ a : Nat,
      ((lookupA (s.deleteNodes cands maxMap editedAt).2 a).isSome ↔
        ∃ n ∈ cands, n.canDelete editedAt (boundFor maxMap n.id.createdAt.actor) = true ∧
          n.id.createdAt.actor = a) ∧
      (∀ c, lookupA (s.deleteNodes cands maxMap editedAt).2 a = some c →
        (∃ n ∈ cands, n.canDelete editedAt (boundFor maxMap n.id.createdAt.actor) = true ∧
          n.id.createdAt.actor = a ∧ n.id.createdAt = c) ∧
        (∀ n ∈ cands, n.canDelete editedAt (boundFor maxMap n.id.createdAt.actor) = true →
          n.id.createdAt.actor = a → ¬n.id.createdAt.after c = true))) := by
  simp only [deleteNodes_eq_pair]
  constructor
  · exact delFold_state maxMap editedAt cands s.nodes
  · have hinv := delFold_map maxMap editedAt cands [] [] mapInv_nil
    simp only [List.nil_append] at hinv
    intro a
    obtain ⟨hiff, hprop⟩ := hinv a
    constructor
    · rw [hiff]
      constructor
      · rintro ⟨m, hm, hma⟩
        have hmf := List.mem_filter.mp hm
        exact ⟨m, hmf.1, hmf.2, hma⟩
      · rintro ⟨m, hm, hmc, hma⟩
        exact ⟨m, List.mem_filter.mpr ⟨hm, hmc⟩, hma⟩
    · intro c hc
      obtain ⟨hat, hub⟩ := hprop c hc
      constructor
      · obtain ⟨m, hm, hma, hmc⟩ := hat
        have hmf := List.mem_filter.mp hm
        exact ⟨m, hmf.1, hmf.2, hma, hmc⟩
      · intro m hm hmdel hma
        exact hub m (List.mem_filter.mpr ⟨hm, hmdel⟩) hma

/-- Witness for C1: deleting the `"AB"` node under the bound map
`{actor 1 ↦ t1A}` at `t2B`. -/
theorem C1_deleteNodes_spec_witness :
    (sampleAB.deleteNodes [nodeAB] (some [(1, t1A)]) t2B).1.nodes =
      sampleAB.nodes.map (fun m =>
        if ∃ n ∈ [nodeAB], n.id = m.id ∧
            n.canDelete t2B (boundFor (some [(1, t1A)]) n.id.createdAt.actor) = true
        then { m with deletedAt := some t2B } else m) ∧
    (∀ a : Nat,
      ((lookupA (sampleAB.deleteNodes [nodeAB] (some [(1, t1A)]) t2B).2 a).isSome ↔
        ∃ n ∈ [nodeAB], n.canDelete t2B (boundFor (some [(1, t1A)]) n.id.createdAt.actor) = true ∧
          n.id.createdAt.actor = a) ∧
      (∀ c, lookupA (sampleAB.deleteNodes [nodeAB] (some [(1, t1A)]) t2B).2 a = some c →
        (∃ n ∈ [nodeAB],
          n.canDelete t2B (boundFor (some [(1, t1A)]) n.id.createdAt.actor) = true ∧
          n.id.createdAt.actor = a ∧ n.id.createdAt = c) ∧
        (∀ n ∈ [nodeAB],
          n.canDelete t2B (boundFor (some [(1, t1A)]) n.id.createdAt.actor) = true →
          n.id.createdAt.actor = a → ¬n.id.createdAt.after c = true))) :=
  C1_deleteNodes_spec sampleAB [nodeAB] (some [(1, t1A)]) t2B

/-- Witness for the amended C8 on the document `"AB"`: the floor of the
node's own key is the node, and for the synthetic id `(t1A, 5)` past the
node the floor is the node and the lookup succeeds because the `createdAt`
matches. -/
theorem C8_floor_amended_witness :
    sampleAB.findFloorTextNode nodeAB.id = some nodeAB ∧
    (floorLLRB sampleAB.nodes ⟨t1A, 5⟩ = some nodeAB ∧
      sampleAB.findFloorTextNode ⟨t1A, 5⟩ =
        if nodeAB.id = ⟨t1A, 5⟩ ∨ nodeAB.id.createdAt = (⟨t1A, 5⟩ : TextNodeID).createdAt
        then some nodeAB else none) :=
  ⟨(C8_floor_amended sampleAB (by decide)).1 nodeAB (by decide),
    (C8_floor_amended sampleAB (by decide)).2 ⟨t1A, 5⟩ nodeAB (by decide) (by decide)
      (by decide)⟩

/-! ## C6: the insPrev invariant -/

/-- Invariant 3 of the spec: every node with a positive id offset has an
`insPrev` link whose id shares the node's `createdAt` and has a strictly
smaller offset. -/
def InvPrev (ns : List TextNode) : Prop :=
  ∀ n ∈ ns, 0 < n.id.offset →
    ∃ p, n.insPrevI = some p ∧ p.createdAt = n.id.createdAt ∧ p.offset < n.id.offset

/-- Companion invariant: an `insNext` link points at an id with the same
`createdAt` lying at or beyond the end of the node's content span. -/
def InvNext (ns : List TextNode) : Prop :=
  ∀ n ∈ ns, ∀ j, n.insNextI = some j →
    j.createdAt = n.id.createdAt ∧ n.id.offset + n.contentLen ≤ j.offset

theorem findNode_mem {ns : List TextNode} {i : TextNodeID} {n : TextNode}
    (h : findNode ns i = some n) : n ∈ ns := by
  obtain ⟨pre, post, hsplit, _, _⟩ := findNode_split h
  rw [hsplit]
  exact List.mem_append_right pre (List.mem_cons_self n post)

theorem findNode_id {ns : List TextNode} {i : TextNodeID} {n : TextNode}
    (h : findNode ns i = some n) : n.id = i := by
  obtain ⟨_, _, _, _, hid⟩ := findNode_split h
  exact hid

theorem inv_map_preserve {ns : List TextNode} {g : TextNode → TextNode}
    (hg : ∀ m, (g m).id = m.id ∧ (g m).insPrevI = m.insPrevI ∧ (g m).insNextI = m.insNextI ∧
      (g m).value = m.value)
    (hp : InvPrev ns) (hn : InvNext ns) : InvPrev (ns.map g) ∧ InvNext (ns.map g) := by
  constructor
  · intro x hx hxoff
    obtain ⟨m, hm, hmx⟩ := List.mem_map.mp hx
    obtain ⟨h1, h2, _, _⟩ := hg m
    rw [← hmx, h1] at hxoff ⊢
    rw [h2]
    exact hp m hm hxoff
  · intro x hx j hj
    obtain ⟨m, hm, hmx⟩ := List.mem_map.mp hx
    obtain ⟨h1, _, h3, h4⟩ := hg m
    rw [← hmx, h1]
    rw [← hmx, h3] at hj
    have : x.contentLen = m.contentLen := by
      rw [← hmx]
      unfold TextNode.contentLen
      rw [h4]
    rw [← hmx] at this
    rw [this]
    exact hn m hm j hj

theorem insertAfterL_inv {ns : List TextNode} {i : TextNodeID} {x : TextNode}
    (hp : InvPrev ns) (hn : InvNext ns)
    (hx : 0 < x.id.offset →
      ∃ p, x.insPrevI = some p ∧ p.createdAt = x.id.createdAt ∧ p.offset < x.id.offset)
    (hxn : ∀ j, x.insNextI = some j →
      j.createdAt = x.id.createdAt ∧ x.id.offset + x.contentLen ≤ j.offset) :
    InvPrev (insertAfterL ns i x) ∧ InvNext (insertAfterL ns i x) := by
  constructor
  · intro m hm hmoff
    rcases mem_insertAfterL hm with hm | hm
    · exact hp m hm hmoff
    · rw [hm]
      rw [hm] at hmoff
      exact hx hmoff
  · intro m hm j hj
    rcases mem_insertAfterL hm with hm | hm
    · exact hn m hm j hj
    · rw [hm]
      rw [hm] at hj
      exact hxn j hj

theorem splitTextNode_inv (s : RGATreeSplit) (nid : TextNodeID) (k : Nat)
    (hp : InvPrev s.nodes) (hn : InvNext s.nodes) :
    InvPrev (s.splitTextNode nid k).1.nodes ∧ InvNext (s.splitTextNode nid k).1.nodes := by
  rcases hf : findNode s.nodes nid with _ | n
  · simp only [RGATreeSplit.splitTextNode, hf]
    exact ⟨hp, hn⟩
  · have hid : n.id = nid := findNode_id hf
    by_cases h0 : k = 0
    · simp only [RGATreeSplit.splitTextNode, hf, if_pos h0]
      exact ⟨hp, hn⟩
    by_cases hlen : k = n.contentLen
    · rw [splitTextNode_contentLen hf h0 hlen]
      exact ⟨hp, hn⟩
    by_cases hover : n.contentLen < k
    · simp only [RGATreeSplit.splitTextNode, hf, if_neg h0, if_neg hlen, if_pos hover]
      exact ⟨hp, hn⟩
    have hlt : k < n.contentLen := by omega
    simp only [RGATreeSplit.splitTextNode, hf, if_neg h0, if_neg hlen, if_neg hover]
    have hksucc : 0 < k := by omega
    have hsplitPrev : 0 < (nid.splitID k).offset →
        ∃ p, (some nid : Option TextNodeID) = some p ∧ p.createdAt = (nid.splitID k).createdAt ∧
          p.offset < (nid.splitID k).offset := by
      intro _
      refine ⟨nid, rfl, rfl, ?_⟩
      show nid.offset < nid.offset + k
      omega
    have hmapInv :
        InvPrev (s.nodes.map (fun m =>
          if m.id = nid then { m with value := m.value.take k, insNextI := some (nid.splitID k) }
          else insNextPatch n.insNextI (nid.splitID k) m)) ∧
        InvNext (s.nodes.map (fun m =>
          if m.id = nid then { m with value := m.value.take k, insNextI := some (nid.splitID k) }
          else insNextPatch n.insNextI (nid.splitID k) m)) := by
      constructor
      · intro x hx hxoff
        obtain ⟨m, hm, hmx⟩ := List.mem_map.mp hx
        by_cases hmid : m.id = nid
        · rw [if_pos hmid] at hmx
          rw [← hmx] at hxoff ⊢
          exact hp m hm hxoff
        · rw [if_neg hmid] at hmx
          by_cases hpatch : some m.id = n.insNextI
          · unfold insNextPatch at hmx
            rw [if_pos hpatch] at hmx
            rw [← hmx] at hxoff ⊢
            refine ⟨nid.splitID k, rfl, ?_, ?_⟩
            · have hj := hn n (findNode_mem hf) m.id hpatch.symm
              unfold TextNodeID.splitID
              rw [hid] at hj
              exact hj.1.symm
            · have hj := hn n (findNode_mem hf) m.id hpatch.symm
              rw [hid] at hj
              unfold TextNodeID.splitID
              have := hj.2
              dsimp only
              omega
          · unfold insNextPatch at hmx
            rw [if_neg hpatch] at hmx
            rw [← hmx] at hxoff ⊢
            exact hp m hm hxoff
      · intro x hx j hj
        obtain ⟨m, hm, hmx⟩ := List.mem_map.mp hx
        by_cases hmid : m.id = nid
        · rw [if_pos hmid] at hmx
          rw [← hmx] at hj ⊢
          dsimp only at hj ⊢
          cases hj
          constructor
          · rw [hmid]
            rfl
          · unfold TextNode.contentLen TextNodeID.splitID
            rw [hmid]
            dsimp only
            rw [List.length_take]
            omega
        · rw [if_neg hmid] at hmx
          by_cases hpatch : some m.id = n.insNextI
          · unfold insNextPatch at hmx
            rw [if_pos hpatch] at hmx
            rw [← hmx] at hj ⊢
            exact hn m hm j hj
          · unfold insNextPatch at hmx
            rw [if_neg hpatch] at hmx
            rw [← hmx] at hj ⊢
            exact hn m hm j hj
    refine insertAfterL_inv hmapInv.1 hmapInv.2 hsplitPrev ?_
    intro j hj
    dsimp only at hj
    have hjn := hn n (findNode_mem hf) j hj
    constructor
    · dsimp only
      unfold TextNodeID.splitID
      dsimp only
      rw [hjn.1, hid]
    · have h2 := hjn.2
      rw [hid] at h2
      have hcl : n.contentLen = n.value.length := rfl
      rw [hcl] at h2
      have hlt2 : k < n.value.length := by
        rw [← hcl]
        exact hlt
      show nid.offset + k + (n.value.drop k).length ≤ j.offset
      rw [List.length_drop]
      omega

theorem findTextNodeWithSplit_state {s : RGATreeSplit} {pos : TextNodePos} {t : Ticket}
    {s1 : RGATreeSplit} {l : TextNodeID} {r : Option TextNodeID}
    (h : s.findTextNodeWithSplit pos t = some (s1, l, r)) :
    ∃ nid rel, s1 = (s.splitTextNode nid rel).1 := by
  rcases hr : s.resolveLeft pos with _ | ⟨nid, rel⟩
  · simp only [RGATreeSplit.findTextNodeWithSplit, hr] at h
    cases h
  · rcases hsuf : suffixFrom (s.splitTextNode nid rel).1.nodes nid with _ | ⟨n0, rest⟩
    · simp only [RGATreeSplit.findTextNodeWithSplit, hr, hsuf] at h
      cases h
    · simp only [RGATreeSplit.findTextNodeWithSplit, hr, hsuf] at h
      rw [Option.some.injEq] at h
      exact ⟨nid, rel, ((Prod.ext_iff.mp h).1).symm⟩

theorem delFold_state_inv (maxMap : Option (List (Nat × Ticket))) (editedAt : Ticket)
    (cands : List TextNode) (s : RGATreeSplit)
    (hp : InvPrev s.nodes) (hn : InvNext s.nodes) :
    InvPrev (cands.foldl (delStepState maxMap editedAt) s).nodes ∧
      InvNext (cands.foldl (delStepState maxMap editedAt) s).nodes := by
  have heq : (cands.foldl (delStepState maxMap editedAt) s).nodes =
      s.nodes.map (fun m =>
        if ∃ n ∈ cands, n.id = m.id ∧
            n.canDelete editedAt (boundFor maxMap n.id.createdAt.actor) = true
        then { m with deletedAt := some editedAt } else m) :=
    delFold_state maxMap editedAt cands s.nodes
  rw [heq]
  apply inv_map_preserve ?_ hp hn
  intro m
  by_cases hcond : ∃ n ∈ cands, n.id = m.id ∧
      n.canDelete editedAt (boundFor maxMap n.id.createdAt.actor) = true
  · rw [if_pos hcond]
    exact ⟨rfl, rfl, rfl, rfl⟩
  · rw [if_neg hcond]
    exact ⟨rfl, rfl, rfl, rfl⟩

theorem edit_inv {s : RGATreeSplit} {fromPos toPos : TextNodePos}
    {maxMap : Option (List (Nat × Ticket))} {content : List Char} {editedAt : Ticket}
    {s2 : RGATreeSplit} {caret : TextNodePos} {out : List (Nat × Ticket)}
    (h : s.edit fromPos toPos maxMap content editedAt = some (s2, caret, out))
    (hp : InvPrev s.nodes) (hn : InvNext s.nodes) :
    InvPrev s2.nodes ∧ InvNext s2.nodes := by
  rcases h1 : s.findTextNodeWithSplit fromPos editedAt with _ | ⟨s1, fl, fr⟩
  · simp only [RGATreeSplit.edit, h1] at h
    cases h
  · obtain ⟨nid1, rel1, hs1⟩ := findTextNodeWithSplit_state h1
    have hinv1 : InvPrev s1.nodes ∧ InvNext s1.nodes := by
      rw [hs1]
      exact splitTextNode_inv s nid1 rel1 hp hn
    rcases h2 : s1.findTextNodeWithSplit toPos editedAt with _ | ⟨s2m, tl, tr⟩
    · simp only [RGATreeSplit.edit, h1, h2] at h
      cases h
    · obtain ⟨nid2, rel2, hs2⟩ := findTextNodeWithSplit_state h2
      have hinv2 : InvPrev s2m.nodes ∧ InvNext s2m.nodes := by
        rw [hs2]
        exact splitTextNode_inv s1 nid2 rel2 hinv1.1 hinv1.2
      have hdel : InvPrev (s2m.deleteNodes (findBetween s2m.nodes fr tr) maxMap editedAt).1.nodes ∧
          InvNext (s2m.deleteNodes (findBetween s2m.nodes fr tr) maxMap editedAt).1.nodes := by
        rw [deleteNodes_eq_pair]
        exact delFold_state_inv maxMap editedAt _ s2m hinv2.1 hinv2.2
      simp only [RGATreeSplit.edit, h1, h2] at h
      by_cases hc : content = []
      · rw [if_pos hc, Option.some.injEq] at h
        have hfst := (Prod.ext_iff.mp h).1
        dsimp only at hfst
        rw [← hfst]
        exact hdel
      · rw [if_neg hc, Option.some.injEq] at h
        have hfst := (Prod.ext_iff.mp h).1
        dsimp only at hfst
        rw [← hfst]
        refine insertAfterL_inv hdel.1 hdel.2 ?_ ?_
        · intro h0
          dsimp only at h0
          exact absurd h0 (Nat.lt_irrefl 0)
        · intro j hj
          cases hj

instance optExDecidable (o : Option TextNodeID) (P : TextNodeID → Prop)
    [inst : ∀ p, Decidable (P p)] : Decidable (∃ p, o = some p ∧ P p) :=
  match o with
  | none => isFalse (by
      rintro ⟨p, hp, _⟩
      cases hp)
  | some q => decidable_of_iff (P q) (by
      constructor
      · intro h
        exact ⟨q, rfl, h⟩
      · rintro ⟨p, hp, h⟩
        cases hp
        exact h)

instance optAllDecidable (o : Option TextNodeID) (P : TextNodeID → Prop)
    [inst : ∀ p, Decidable (P p)] : Decidable (∀ j, o = some j → P j) :=
  match o with
  | none => isTrue (by
      intro j hj
      cases hj)
  | some q => decidable_of_iff (P q) (by
      constructor
      · intro h j hj
        cases hj
        exact h
      · intro h
        exact h q rfl)

instance invPrevDecidable (ns : List TextNode) : Decidable (InvPrev ns) :=
  inferInstanceAs (Decidable (∀ n ∈ ns, 0 < n.id.offset →
    ∃ p, n.insPrevI = some p ∧ p.createdAt = n.id.createdAt ∧ p.offset < n.id.offset))

instance invNextDecidable (ns : List TextNode) : Decidable (InvNext ns) :=
  inferInstanceAs (Decidable (∀ n ∈ ns, ∀ j, n.insNextI = some j →
    j.createdAt = n.id.createdAt ∧ n.id.offset + n.contentLen ≤ j.offset))

/-- C6.  The sentinel-only initial structure satisfies the `insPrev`
invariant (and its `insNext` companion), and every successful `edit` —
including the splits it performs — preserves both: afterwards every node
reachable from `initialHead` whose id offset is positive has an `insPrev`
link with the same `createdAt` and a strictly smaller offset. -/
theorem C6_insPrev_invariant :
    (InvPrev NewRGATreeSplit.nodes ∧ InvNext NewRGATreeSplit.nodes) ∧
    ∀ (s : RGATreeSplit) (fromPos toPos : TextNodePos)
      (maxMap : Option (List (Nat × Ticket))) (content : List Char) (editedAt : Ticket)
      (s2 : RGATreeSplit) (caret : TextNodePos) (out : List (Nat × Ticket)),
      InvPrev s.nodes → InvNext s.nodes →
      s.edit fromPos toPos maxMap content editedAt = some (s2, caret, out) →
      InvPrev s2.nodes ∧ InvNext s2.nodes := by
  constructor
  · constructor
    · intro n hn hoff
      rcases List.mem_singleton.mp hn with rfl
      exact absurd hoff (by decide)
    · intro n hn j hj
      rcases List.mem_singleton.mp hn with rfl
      cases hj
  · intro s fromPos toPos maxMap content editedAt s2 caret out hp hn h
    exact edit_inv h hp hn

/-- Witness for C6: inserting `"AB"` into the empty document yields the
fixture `sampleAB`, which satisfies both invariants. -/
theorem C6_insPrev_invariant_witness :
    InvPrev sampleAB.nodes ∧ InvNext sampleAB.nodes :=
  C6_insPrev_invariant.2 NewRGATreeSplit posHead0 posHead0 none ['A', 'B'] t1A
    sampleAB ⟨⟨t1A, 0⟩, 2⟩ [] (by decide) (by decide) (by decide)

/-! ## C9: the noop edit -/

/-- Chain consistency: every `insPrev` link is mirrored by the `insNext`
link of its target. -/
def InvChain (ns : List TextNode) : Prop :=
  ∀ n ∈ ns, ∀ pid, n.insPrevI = some pid → ∀ p ∈ ns, p.id = pid → p.insNextI = some n.id

instance invChainDecidable (ns : List TextNode) : Decidable (InvChain ns) :=
  inferInstanceAs (Decidable (∀ n ∈ ns, ∀ pid, n.insPrevI = some pid →
    ∀ p ∈ ns, p.id = pid → p.insNextI = some n.id))

theorem idLe_offset_le {x y : TextNodeID} (h : idLe x y) (hc : x.createdAt = y.createdAt) :
    x.offset ≤ y.offset := by
  unfold idLe at h
  rw [TextNodeID.compareID_gt_arith] at h
  rw [hc] at h
  omega

theorem findNode_eq_of_mem_nodup {ns : List TextNode} {n : TextNode}
    (hnd : (ns.map (fun m => m.id)).Nodup) (hm : n ∈ ns) : findNode ns n.id = some n := by
  induction ns with
  | nil => cases hm
  | cons x rest ih =>
    rcases List.mem_cons.mp hm with hm | hm
    · rw [hm]
      simp [findNode]
    · unfold findNode
      by_cases hx : x.id = n.id
      · exfalso
        rw [List.map_cons, List.nodup_cons] at hnd
        exact hnd.1 (hx ▸ List.mem_map_of_mem (fun m => m.id) hm)
      · rw [if_neg hx]
        rw [List.map_cons, List.nodup_cons] at hnd
        exact ih hnd.2 hm

theorem floorPreferToLeft_mem {s : RGATreeSplit} {i : TextNodeID} {n : TextNode}
    (h : s.findFloorTextNodePreferToLeft i = some n) : n ∈ s.nodes := by
  unfold RGATreeSplit.findFloorTextNodePreferToLeft at h
  rcases hf : s.findFloorTextNode i with _ | f
  · rw [hf] at h
    cases h
  · rw [hf] at h
    have hfm : f ∈ s.nodes := by
      unfold RGATreeSplit.findFloorTextNode at hf
      rcases hfl : floorLLRB s.nodes i with _ | x
      · rw [hfl] at hf
        cases hf
      · rw [hfl] at hf
        by_cases hguard : x.id.compareID i ≠ Ordering.eq ∧
            x.id.createdAt.compareT i.createdAt ≠ Ordering.eq
        · simp only [if_pos hguard] at hf
          cases hf
        · simp only [if_neg hguard] at hf
          cases hf
          exact (floorLLRB_eq_some hfl).1
    by_cases hcond : 0 < i.offset ∧ f.id.offset = i.offset
    · simp only [if_pos hcond] at h
      rcases hip : f.insPrevI with _ | pid
      · rw [hip] at h
        cases h
      · rw [hip] at h
        exact findNode_mem h
    · simp only [if_neg hcond] at h
      cases h
      exact hfm

theorem findFloorTextNode_cases {s : RGATreeSplit} {i : TextNodeID} {f : TextNode}
    (h : s.findFloorTextNode i = some f) :
    floorLLRB s.nodes i = some f ∧ (f.id = i ∨ f.id.createdAt = i.createdAt) := by
  unfold RGATreeSplit.findFloorTextNode at h
  rcases hfl : floorLLRB s.nodes i with _ | x
  · rw [hfl] at h
    cases h
  · rw [hfl] at h
    by_cases hguard : x.id.compareID i ≠ Ordering.eq ∧
        x.id.createdAt.compareT i.createdAt ≠ Ordering.eq
    · simp only [if_pos hguard] at h
      cases h
    · simp only [if_neg hguard] at h
      cases h
      refine ⟨rfl, ?_⟩
      push_neg at hguard
      by_cases heq : f.id.compareID i = Ordering.eq
      · exact Or.inl ((TextNodeID.compareID_eq_iff f.id i).mp heq)
      · exact Or.inr ((Ticket.compareT_eq_iff f.id.createdAt i.createdAt).mp (hguard heq))

/-- In a chain-consistent, `insPrev`-sound state, an interior split during
position resolution can only happen in the no-redirect case, the fresh id
is exactly the position's absolute id, and that id is not yet a key. -/
theorem resolve_interior {s : RGATreeSplit} {p : TextNodePos} {nid : TextNodeID} {rel : Nat}
    {n : TextNode}
    (_hp : InvPrev s.nodes) (hnx : InvNext s.nodes) (hch : InvChain s.nodes)
    (hres : s.findFloorTextNodePreferToLeft p.getAbsoluteID = some n)
    (hnid : n.id = nid) (hrel : rel = p.getAbsoluteID.offset - n.id.offset)
    (h0 : ¬rel = 0) (hlt : rel < n.contentLen) :
    nid.splitID rel = p.getAbsoluteID ∧ ∀ m ∈ s.nodes, m.id ≠ p.getAbsoluteID := by
  unfold RGATreeSplit.findFloorTextNodePreferToLeft at hres
  rcases hf : s.findFloorTextNode p.getAbsoluteID with _ | f
  · rw [hf] at hres
    cases hres
  rw [hf] at hres
  obtain ⟨hfl, hguard⟩ := findFloorTextNode_cases hf
  obtain ⟨hfmem, hfle, hub⟩ := floorLLRB_eq_some hfl
  by_cases hcond : 0 < p.getAbsoluteID.offset ∧ f.id.offset = p.getAbsoluteID.offset
  · exfalso
    simp only [if_pos hcond] at hres
    have hfid : f.id = p.getAbsoluteID := by
      rcases hguard with hguard | hguard
      · exact hguard
      · calc f.id = ⟨f.id.createdAt, f.id.offset⟩ := rfl
          _ = ⟨p.getAbsoluteID.createdAt, p.getAbsoluteID.offset⟩ := by
              rw [hguard, hcond.2]
          _ = p.getAbsoluteID := rfl
    rcases hip : f.insPrevI with _ | pid
    · rw [hip] at hres
      cases hres
    rw [hip] at hres
    have hnmem := findNode_mem hres
    have hnpid : n.id = pid := findNode_id hres
    have hnext := hch f hfmem pid hip n hnmem hnpid
    have hspan := hnx n hnmem f.id hnext
    rw [hfid] at hspan
    rw [hrel] at hlt h0
    omega
  · simp only [if_neg hcond] at hres
    cases hres
    have hfcreated : n.id.createdAt = p.getAbsoluteID.createdAt := by
      rcases hguard with hguard | hguard
      · rw [hguard]
      · exact hguard
    have hoffle : n.id.offset ≤ p.getAbsoluteID.offset := idLe_offset_le hfle hfcreated
    have hofflt : n.id.offset < p.getAbsoluteID.offset := by
      rw [hrel] at h0
      omega
    constructor
    · rw [← hnid, hrel]
      unfold TextNodeID.splitID
      calc (⟨n.id.createdAt, n.id.offset + (p.getAbsoluteID.offset - n.id.offset)⟩ : TextNodeID)
          = ⟨p.getAbsoluteID.createdAt, p.getAbsoluteID.offset⟩ := by
            rw [hfcreated]
            congr 1
            omega
        _ = p.getAbsoluteID := rfl
    · intro m hm hmid
      have h1 : idLe m.id p.getAbsoluteID := by
        rw [hmid]
        exact idLe_refl _
      have h2 := hub m hm h1
      rw [hmid] at h2
      have h3 : n.id = p.getAbsoluteID := idLe_antisymm hfle h2
      rw [h3] at hofflt
      omega

theorem map_id_insNextPatch (j : Option TextNodeID) (sid : TextNodeID) (l : List TextNode) :
    (l.map (insNextPatch j sid)).map (fun m => m.id) = l.map (fun m => m.id) := by
  rw [List.map_map]
  apply List.map_congr_left
  intro m _
  exact insNextPatch_id j sid m

theorem nodup_insert_fresh {xs ys : List TextNodeID} {a b : TextNodeID}
    (h : (xs ++ a :: ys).Nodup) (hb : ¬b ∈ xs ++ a :: ys) : (xs ++ a :: b :: ys).Nodup := by
  rw [List.nodup_append] at h ⊢
  obtain ⟨h1, h2, h3⟩ := h
  rw [List.nodup_cons] at h2
  refine ⟨h1, ?_, ?_⟩
  · rw [List.nodup_cons, List.nodup_cons]
    refine ⟨?_, ?_, h2.2⟩
    · intro hmem
      rcases List.mem_cons.mp hmem with hmem | hmem
      · exact hb (hmem ▸ List.mem_append_right xs (List.mem_cons_self a ys))
      · exact h2.1 hmem
    · intro hmem
      exact hb (List.mem_append_right xs (List.mem_cons_of_mem a hmem))
  · intro x hx hmem
    rcases List.mem_cons.mp hmem with hmem | hmem
    · exact h3 hx (hmem ▸ List.mem_cons_self a ys)
    · rcases List.mem_cons.mp hmem with hmem | hmem
      · exact hb (hmem ▸ List.mem_append_left (a :: ys) hx)
      · exact h3 hx (List.mem_cons_of_mem a hmem)

theorem findTextNodeWithSplit_stable {s : RGATreeSplit} {p : TextNodePos} {t : Ticket}
    {s1 : RGATreeSplit} {l : TextNodeID} {r : Option TextNodeID}
    (hnd : (s.nodes.map (fun m => m.id)).Nodup)
    (hp : InvPrev s.nodes) (hnx : InvNext s.nodes) (hch : InvChain s.nodes)
    (h : s.findTextNodeWithSplit p t = some (s1, l, r)) :
    s1.findTextNodeWithSplit p t = some (s1, l, r) := by
  rcases hres : s.resolveLeft p with _ | ⟨nid, rel⟩
  · simp only [RGATreeSplit.findTextNodeWithSplit, hres] at h
    cases h
  rcases hsuf : suffixFrom (s.splitTextNode nid rel).1.nodes nid with _ | ⟨n0, rest⟩
  · simp only [RGATreeSplit.findTextNodeWithSplit, hres, hsuf] at h
    cases h
  simp only [RGATreeSplit.findTextNodeWithSplit, hres, hsuf] at h
  rw [Option.some.injEq] at h
  obtain ⟨hs1, hrest2⟩ := Prod.ext_iff.mp h
  obtain ⟨hl, hr⟩ := Prod.ext_iff.mp hrest2
  dsimp only at hs1 hl hr
  have hresolve : ∃ nf, s.findFloorTextNodePreferToLeft p.getAbsoluteID = some nf ∧
      nf.id = nid ∧ rel = p.getAbsoluteID.offset - nf.id.offset := by
    unfold RGATreeSplit.resolveLeft at hres
    rcases hfp : s.findFloorTextNodePreferToLeft p.getAbsoluteID with _ | nf
    · rw [hfp] at hres
      cases hres
    · rw [hfp, Option.some.injEq] at hres
      obtain ⟨ha, hb⟩ := Prod.ext_iff.mp hres
      dsimp only at ha hb
      exact ⟨nf, rfl, ha, hb.symm⟩
  obtain ⟨nf, hfp, hfid, hfrel⟩ := hresolve
  have hfound : findNode s.nodes nid = some nf := by
    rw [← hfid]
    exact findNode_eq_of_mem_nodup hnd (floorPreferToLeft_mem hfp)
  by_cases hno : rel = 0 ∨ rel = nf.contentLen ∨ nf.contentLen < rel
  · have hseq : (s.splitTextNode nid rel).1 = s := by
      apply splitTextNode_state_of_noSplit
      intro n2 hf2
      rw [hfound] at hf2
      cases hf2
      exact hno
    have hs1s : s1 = s := by
      rw [← hs1, hseq]
    subst hs1s
    have hsuf2 : suffixFrom s1.nodes nid = n0 :: rest := by
      rw [← hseq]
      exact hsuf
    simp only [RGATreeSplit.findTextNodeWithSplit, hres, hseq, hsuf2]
    rw [hl, hr]
  · push_neg at hno
    obtain ⟨h0, hlen, hle⟩ := hno
    have hlt : rel < nf.contentLen := by omega
    obtain ⟨hsid, hfresh⟩ := resolve_interior hp hnx hch hfp hfid hfrel h0 hlt
    obtain ⟨pre, post, hdecomp, hpre, hpost, hnfid, hresnodes, _⟩ :=
      splitTextNode_interior hnd hfound h0 hlt
    set sid := nid.splitID rel with hsiddef
    set M : TextNode := ⟨sid, nf.value.drop rel, none, some nid, nf.insNextI⟩ with hMdef
    set n1 : TextNode :=
      { nf with value := nf.value.take rel, insNextI := some sid } with hn1def
    have hn1id : n1.id = nid := hnfid
    have hs1nodes : s1.nodes =
        pre.map (insNextPatch nf.insNextI sid) ++ n1 :: M ::
          post.map (insNextPatch nf.insNextI sid) := by
      rw [← hs1]
      exact hresnodes
    have hids : s1.nodes.map (fun m => m.id) =
        pre.map (fun m => m.id) ++ nid :: sid :: post.map (fun m => m.id) := by
      rw [hs1nodes]
      rw [List.map_append, List.map_cons, List.map_cons, map_id_insNextPatch,
        map_id_insNextPatch, hn1id]
    have hnd1 : (s1.nodes.map (fun m => m.id)).Nodup := by
      rw [hids]
      apply nodup_insert_fresh
      · have hids0 : s.nodes.map (fun m => m.id) =
            pre.map (fun m => m.id) ++ nid :: post.map (fun m => m.id) := by
          rw [hdecomp, List.map_append, List.map_cons, hnfid]
        rw [← hids0]
        exact hnd
      · intro hmem
        have : ∃ m ∈ s.nodes, m.id = sid := by
          have hids0 : s.nodes.map (fun m => m.id) =
              pre.map (fun m => m.id) ++ nid :: post.map (fun m => m.id) := by
            rw [hdecomp, List.map_append, List.map_cons, hnfid]
          rw [← hids0] at hmem
          obtain ⟨m, hm, hmid⟩ := List.mem_map.mp hmem
          exact ⟨m, hm, hmid⟩
        obtain ⟨m, hm, hmid⟩ := this
        exact hfresh m hm (by rw [hmid, ← hsid])
    have hMmem : M ∈ s1.nodes := by
      rw [hs1nodes]
      exact List.mem_append_right _ (List.mem_cons_of_mem n1 (List.mem_cons_self M _))
    have hMid : M.id = p.getAbsoluteID := by
      rw [hMdef]
      exact hsid
    have hfloor1 : floorLLRB s1.nodes p.getAbsoluteID = some M := by
      apply floorLLRB_greatest hnd1 hMmem
      · rw [hMid]
        exact idLe_refl _
      · intro m _ hmle
        rw [hMid]
        exact hmle
    have hff1 : s1.findFloorTextNode p.getAbsoluteID = some M := by
      simp only [RGATreeSplit.findFloorTextNode, hfloor1]
      rw [if_neg]
      intro hcon
      exact hcon.1 ((TextNodeID.compareID_eq_iff M.id p.getAbsoluteID).mpr hMid)
    have habsoff : p.getAbsoluteID.offset = nid.offset + rel := by
      rw [← hsid]
      rfl
    have hfindn1 : findNode s1.nodes nid = some n1 := by
      rw [hs1nodes]
      apply findNode_of_decomp
      · intro m hm
        obtain ⟨m0, hm0, hmeq⟩ := List.mem_map.mp hm
        rw [← hmeq, insNextPatch_id]
        exact hpre m0 hm0
      · exact hn1id
    have hfp1 : s1.findFloorTextNodePreferToLeft p.getAbsoluteID = some n1 := by
      simp only [RGATreeSplit.findFloorTextNodePreferToLeft, hff1]
      rw [if_pos ⟨by omega, by rw [hsid]⟩]
      show findNode s1.nodes nid = some n1
      exact hfindn1
    have hres1 : s1.resolveLeft p = some (nid, rel) := by
      simp only [RGATreeSplit.resolveLeft, hfp1]
      rw [hn1id, habsoff]
      have hsub : nid.offset + rel - nid.offset = rel := by omega
      rw [hsub]
    have hn1len : rel = n1.contentLen := by
      rw [hn1def]
      show rel = (nf.value.take rel).length
      rw [List.length_take]
      have : rel ≤ nf.value.length := le_of_lt hlt
      omega
    have hstate1 : (s1.splitTextNode nid rel).1 = s1 := by
      rw [splitTextNode_contentLen hfindn1 h0 hn1len]
    have hsuf2 : suffixFrom s1.nodes nid = n0 :: rest := by
      rw [← hs1]
      exact hsuf
    have hsuf3 : suffixFrom (s1.splitTextNode nid rel).1.nodes nid = n0 :: rest := by
      rw [hstate1]
      exact hsuf2
    simp only [RGATreeSplit.findTextNodeWithSplit, hres1, hstate1, hsuf2, hsuf3]
    rw [hl, hr]

/-- Tombstone bookkeeping of the boundary resolution: the split performed
by `findTextNodeWithSplit` copies `deletedAt` onto no node with a
pre-existing id beyond its original value, and any freshly created node is
live (`newTextNode` leaves `deletedAt` unset). -/
theorem findTextNodeWithSplit_deletedAt {s : RGATreeSplit} {p : TextNodePos} {t : Ticket}
    {s1 : RGATreeSplit} {l : TextNodeID} {r : Option TextNodeID}
    (hnd : (s.nodes.map (fun m => m.id)).Nodup)
    (hp : InvPrev s.nodes) (hnx : InvNext s.nodes) (hch : InvChain s.nodes)
    (h : s.findTextNodeWithSplit p t = some (s1, l, r)) :
    (∀ m ∈ s1.nodes, ∀ m0 ∈ s.nodes, m.id = m0.id → m.deletedAt = m0.deletedAt) ∧
      (∀ m ∈ s1.nodes, (∀ m0 ∈ s.nodes, m.id ≠ m0.id) → m.deletedAt = none) := by
  rcases hres : s.resolveLeft p with _ | ⟨nid, rel⟩
  · simp only [RGATreeSplit.findTextNodeWithSplit, hres] at h
    cases h
  rcases hsuf : suffixFrom (s.splitTextNode nid rel).1.nodes nid with _ | ⟨n0, rest⟩
  · simp only [RGATreeSplit.findTextNodeWithSplit, hres, hsuf] at h
    cases h
  simp only [RGATreeSplit.findTextNodeWithSplit, hres, hsuf] at h
  rw [Option.some.injEq] at h
  have hs1 : (s.splitTextNode nid rel).1 = s1 := by
    have h1 := (Prod.ext_iff.mp h).1
    dsimp only at h1
    exact h1
  have hresolve : ∃ nf, s.findFloorTextNodePreferToLeft p.getAbsoluteID = some nf ∧
      nf.id = nid ∧ rel = p.getAbsoluteID.offset - nf.id.offset := by
    unfold RGATreeSplit.resolveLeft at hres
    rcases hfp : s.findFloorTextNodePreferToLeft p.getAbsoluteID with _ | nf
    · rw [hfp] at hres
      cases hres
    · rw [hfp, Option.some.injEq] at hres
      obtain ⟨ha, hb⟩ := Prod.ext_iff.mp hres
      dsimp only at ha hb
      exact ⟨nf, rfl, ha, hb.symm⟩
  obtain ⟨nf, hfp, hfid, hfrel⟩ := hresolve
  have hfound : findNode s.nodes nid = some nf := by
    rw [← hfid]
    exact findNode_eq_of_mem_nodup hnd (floorPreferToLeft_mem hfp)
  by_cases hno : rel = 0 ∨ rel = nf.contentLen ∨ nf.contentLen < rel
  · have hseq : (s.splitTextNode nid rel).1 = s := by
      apply splitTextNode_state_of_noSplit
      intro n2 hf2
      rw [hfound] at hf2
      cases hf2
      exact hno
    have hs1s : s1 = s := by
      rw [← hs1, hseq]
    subst hs1s
    constructor
    · intro m hm m0 hm0 hid
      exact congrArg TextNode.deletedAt (id_inj_of_nodup hnd hm hm0 hid)
    · intro m hm hne
      exact absurd rfl (hne m hm)
  · push_neg at hno
    obtain ⟨h0, hlen, hle⟩ := hno
    have hlt : rel < nf.contentLen := by omega
    obtain ⟨hsid, hfresh⟩ := resolve_interior hp hnx hch hfp hfid hfrel h0 hlt
    obtain ⟨pre, post, hdecomp, hpre, hpost, hnfid, hresnodes, _⟩ :=
      splitTextNode_interior hnd hfound h0 hlt
    have hs1nodes : s1.nodes =
        pre.map (insNextPatch nf.insNextI (nid.splitID rel)) ++
          { nf with value := nf.value.take rel, insNextI := some (nid.splitID rel) } ::
            (⟨nid.splitID rel, nf.value.drop rel, none, some nid, nf.insNextI⟩ : TextNode) ::
              post.map (insNextPatch nf.insNextI (nid.splitID rel)) := by
      rw [← hs1]
      exact hresnodes
    have hpres : ∀ m1 ∈ pre, m1 ∈ s.nodes := by
      intro m1 hm1
      rw [hdecomp]
      exact List.mem_append_left _ hm1
    have hposts : ∀ m1 ∈ post, m1 ∈ s.nodes := by
      intro m1 hm1
      rw [hdecomp]
      exact List.mem_append_right _ (List.mem_cons_of_mem nf hm1)
    have hnfs : nf ∈ s.nodes := by
      rw [hdecomp]
      exact List.mem_append_right _ (List.mem_cons_self nf post)
    constructor
    · intro m hm m0 hm0 hid
      rw [hs1nodes] at hm
      rcases List.mem_append.mp hm with hm | hm
      · obtain ⟨m1, hm1, hmeq⟩ := List.mem_map.mp hm
        have hmid : m.id = m1.id := by
          rw [← hmeq, insNextPatch_id]
        have hm10 : m1 = m0 := id_inj_of_nodup hnd (hpres m1 hm1) hm0 (hmid ▸ hid)
        rw [← hmeq, (insNextPatch_value _ _ m1).2, hm10]
      · rcases List.mem_cons.mp hm with hm | hm
        · have hmid : m.id = nf.id := by
            rw [hm]
          have hm10 : nf = m0 := id_inj_of_nodup hnd hnfs hm0 (hmid ▸ hid)
          rw [hm, ← hm10]
        · rcases List.mem_cons.mp hm with hm | hm
          · exfalso
            apply hfresh m0 hm0
            rw [← hid, hm]
            exact hsid
          · obtain ⟨m1, hm1, hmeq⟩ := List.mem_map.mp hm
            have hmid : m.id = m1.id := by
              rw [← hmeq, insNextPatch_id]
            have hm10 : m1 = m0 := id_inj_of_nodup hnd (hposts m1 hm1) hm0 (hmid ▸ hid)
            rw [← hmeq, (insNextPatch_value _ _ m1).2, hm10]
    · intro m hm hne
      rw [hs1nodes] at hm
      rcases List.mem_append.mp hm with hm | hm
      · exfalso
        obtain ⟨m1, hm1, hmeq⟩ := List.mem_map.mp hm
        apply hne m1 (hpres m1 hm1)
        rw [← hmeq, insNextPatch_id]
      · rcases List.mem_cons.mp hm with hm | hm
        · exfalso
          apply hne nf hnfs
          rw [hm]
        · rcases List.mem_cons.mp hm with hm | hm
          · rw [hm]
          · exfalso
            obtain ⟨m1, hm1, hmeq⟩ := List.mem_map.mp hm
            apply hne m1 (hposts m1 hm1)
            rw [← hmeq, insNextPatch_id]

/-- Result of inserting a single character at a position of the two-node
sample, read back through `marshal`: the observable character boundary a
position denotes. -/
def insertZat (q : TextNodePos) : Option (List Char) :=
  (sampleTwo.edit q q none ['z'] t4D).map (fun r => r.1.marshal)

/-- C9, counterexample: the noop edit at position ((t1A,0),1) of "AB" (the
boundary between A and B) returns the caret ((t2B,0),0); inserting at that
caret appends after B ("ABz"), while inserting at the original position
lands between A and B ("AzB"), so the returned caret denotes a different
character boundary than fromPos. -/
theorem C9_noop_counterexample :
    (sampleTwo.edit posAB1 posAB1 (some []) [] t3C).map (fun q => q.2.1) =
        some ⟨⟨t2B, 0⟩, 0⟩ ∧
      insertZat ⟨⟨t2B, 0⟩, 0⟩ = some ['A', 'B', 'z'] ∧
        insertZat posAB1 = some ['A', 'z', 'B'] :=
  ⟨rfl, rfl, rfl⟩

/-- C9, amended: a successful edit with an empty range and empty content
(on a state whose node ids are distinct and whose split-sibling chain
invariants hold) tombstones no node — every surviving id keeps its
`deletedAt`, fresh split nodes are live — returns the empty deleted-actor
map, and returns a caret with relative offset 0; but that caret may denote
a different character boundary than fromPos (see the counterexample). -/
theorem C9_noop_amended {s : RGATreeSplit} {p : TextNodePos}
    {maxMap : Option (List (Nat × Ticket))} {t : Ticket}
    {s2 : RGATreeSplit} {caret : TextNodePos} {out : List (Nat × Ticket)}
    (hnd : (s.nodes.map (fun m => m.id)).Nodup)
    (hp : InvPrev s.nodes) (hnx : InvNext s.nodes) (hch : InvChain s.nodes)
    (h : s.edit p p maxMap [] t = some (s2, caret, out)) :
    out = [] ∧ caret.relativeOffset = 0 ∧
      (∀ m ∈ s2.nodes, ∀ m0 ∈ s.nodes, m.id = m0.id → m.deletedAt = m0.deletedAt) ∧
      (∀ m ∈ s2.nodes, (∀ m0 ∈ s.nodes, m.id ≠ m0.id) → m.deletedAt = none) := by
  rcases h1 : s.findTextNodeWithSplit p t with _ | ⟨s1, fl, fr⟩
  · simp only [RGATreeSplit.edit, h1] at h
    cases h
  · have h2 := findTextNodeWithSplit_stable hnd hp hnx hch h1
    have hdel := findTextNodeWithSplit_deletedAt hnd hp hnx hch h1
    have hcands : findBetween s1.nodes fr fr = [] := by
      rcases fr with _ | f
      · rfl
      · exact upTo_suffixFrom s1.nodes f
    simp only [RGATreeSplit.edit, h1, h2, hcands, RGATreeSplit.deleteNodes,
      List.foldl_nil] at h
    rw [if_pos trivial] at h
    rw [Option.some.injEq] at h
    obtain ⟨hs2, hrest⟩ := Prod.ext_iff.mp h
    obtain ⟨hcar, hout⟩ := Prod.ext_iff.mp hrest
    dsimp only at hs2 hcar hout
    refine ⟨hout.symm, ?_, ?_, ?_⟩
    · rw [← hcar]
    · rw [← hs2]
      exact hdel.1
    · rw [← hs2]
      exact hdel.2

/-- Closed instance of C9_noop_amended: the noop edit on the two-node
sample at the A|B boundary returns the empty map, a caret with relative
offset 0, and an unchanged tombstone picture. -/
theorem C9_noop_amended_witness :
    ([] : List (Nat × Ticket)) = [] ∧
      (⟨⟨t2B, 0⟩, 0⟩ : TextNodePos).relativeOffset = 0 ∧
      (∀ m ∈ sampleTwo.nodes, ∀ m0 ∈ sampleTwo.nodes,
        m.id = m0.id → m.deletedAt = m0.deletedAt) ∧
      (∀ m ∈ sampleTwo.nodes, (∀ m0 ∈ sampleTwo.nodes, m.id ≠ m0.id) →
        m.deletedAt = none) :=
  @C9_noop_amended sampleTwo posAB1 (some []) t3C sampleTwo ⟨⟨t2B, 0⟩, 0⟩ []
    (by decide) (by decide) (by decide) (by decide) rfl

end Yorkie
